import Mathlib

/-!
# Verification of the matmul kernels of Arm-Total-Performance

A shallow embedding, over exact arithmetic, of the dense
matrix-multiplication kernels of the repository:

* `matmul_neon` together with its helper `pack_B_tile`
  (src/tutorial_1/src/matmul_neon.cpp),
* the naive triple-loop reference `matmul_naive`
  (src/tutorial_1/src/matmul_tiled_2d.cpp, M,K,N variant;
  src/tutorial_1_topdown/src/matmul_naive.cpp, square variant),
* the scalar tiled variants `matmul_tiled_1d`
  (src/tutorial_1/src/matmul_tiled_neon.cpp), `matmul_tiled_2d`
  (src/tutorial_1/src/matmul_tiled_2d.cpp) and `matmul_tiled`
  (src/tutorial_1/src/matmul_tiled.cpp).

Float cells are modelled exactly: the cell type is an arbitrary
commutative ring `R` (all the kernels use only `+`, `*` and `0`), so the
theorems cover in particular `R = ℚ`, the exact arithmetic of
floating-point input data, while concrete counterexamples use `R = ℤ`
(integer-valued float data, exactly representable).  Flat float buffers
are total functions `Nat → R` (the address space of the program; an
address beyond the logical end of a buffer reads whatever the function
assigns there, mirroring the fact that the C code performs such reads
for ragged shapes).  Each C loop is translated as a recursion on its
trip count: the value at fuel `m` is the state after the first `m`
iterations of the loop, so `loop (m+1)` applies iteration `m` to
`loop m`, exactly the order the program executes.
-/

/-- A flat buffer of single-precision floats, modelled exactly:
each cell holds an element of the commutative ring `R`. -/
abbrev Buf (R : Type) : Type := Nat → R

/-- A 128-bit NEON register holding 4 float lanes. -/
abbrev Vec4 (R : Type) : Type := Fin 4 → R

variable {R : Type} [CommRing R]

/-- Store value `v` at address `p`. -/
def upd (b : Buf R) (p : Nat) (v : R) : Buf R := fun q => if q = p then v else b q

/-- `C[p] += v`, the scalar accumulate statement of the tiled kernels. -/
def addAt (b : Buf R) (p : Nat) (v : R) : Buf R := upd b p (b p + v)

/-- `memset(C, 0, len * sizeof(float))`: zero the first `len` cells. -/
def zeroRegion (b : Buf R) (len : Nat) : Buf R := fun q => if q < len then 0 else b q

/-- Trip count of `for (x = 0; x < n; x += step)`: `⌈n / step⌉`. -/
def cdiv (n step : Nat) : Nat := (n + step - 1) / step

/-- `constexpr int TILE = 64;` (identical in all tiled variants). -/
def TILE : Nat := 64

/-- `vld1q_f32(&b[p])`: load 4 consecutive floats. -/
def load4 (b : Buf R) (p : Nat) : Vec4 R := fun l => b (p + (l : Nat))

/-- `vst1q_f32(&b[p], v)`: store 4 consecutive floats (lane 0 first). -/
def store4 (b : Buf R) (p : Nat) (v : Vec4 R) : Buf R :=
  upd (upd (upd (upd b p (v 0)) (p + 1) (v 1)) (p + 2) (v 2)) (p + 3) (v 3)

/-- `vfmaq_n_f32(c, b, a)`: lanewise fused multiply-add `c + b * a`
(exact: a fused multiply-add performs no intermediate rounding, and our
arithmetic is exact anyway). -/
def vfma (c b : Vec4 R) (a : R) : Vec4 R := fun l => c l + b l * a

/-- Inner `k`-loop of `pack_B_tile` for the 4-column group starting at
column `j`: after `m` iterations, rows `k0..k0+m-1` of the group have been
copied to `packed[base + 4*kc ..]`.  Mirrors
`for (k = k0; k < k_end; ++k) { vst1q_f32(dst, vld1q_f32(&B[k*N+j])); dst += 4; }`. -/
def packK (B P : Buf R) (k0 j N base : Nat) : Nat → Buf R
  | 0 => P
  | m + 1 => store4 (packK B P k0 j N base m) (base + 4 * m) (load4 B ((k0 + m) * N + j))

/-- Outer `j`-loop of `pack_B_tile`: after `m` iterations, the first `m`
4-column groups (`j = j0, j0+4, ...`) have been packed; group `jc` starts
at destination offset `4 * (jc * klen)`.  Mirrors
`for (j = j0; j < j_end; j += 4)`. -/
def packJ (B P : Buf R) (k0 klen j0 N : Nat) : Nat → Buf R
  | 0 => P
  | m + 1 => packK B (packJ B P k0 klen j0 N m) k0 (j0 + 4 * m) N (4 * (m * klen)) klen

/-- `pack_B_tile(B, packed, k0, k_end, j0, j_end, N)`
(src/tutorial_1/src/matmul_neon.cpp lines 36-45): pack
`B[k0:k_end][j0:j_end]` into micro-panel format.  The `j`-loop runs
`⌈(j_end-j0)/4⌉` times, the `k`-loop `k_end - k0` times. -/
def pack_B_tile (B P : Buf R) (k0 k_end j0 j_end N : Nat) : Buf R :=
  packJ B P k0 (k_end - k0) j0 N ((j_end - j0 + 3) / 4)

/-- The innermost `k`-loop of the 4×4 micro-kernel of `matmul_neon`
(lines 74-84): the four accumulators after `m` iterations.  Iteration `m`
loads `b = vld1q_f32(bp_k)` from packed offset `bp + 4*m` and performs
`c_r = vfmaq_n_f32(c_r, b, A[(i+r)*K + (k0+m)])` for the four rows. -/
def kloop (A P : Buf R) (i k0 K bp : Nat) (cs : Fin 4 → Vec4 R) : Nat → Fin 4 → Vec4 R
  | 0 => cs
  | m + 1 =>
    fun r =>
      vfma (kloop A P i k0 K bp cs m r) (load4 P (bp + 4 * m)) (A ((i + (r : Nat)) * K + (k0 + m)))

/-- One 4×4 micro-block of `matmul_neon` (lines 67-92): load the 4×4
block of `C` at rows `i..i+3`, columns `j..j+3`, run the `k`-loop over the
packed panel, and store the four rows back in order (`c0` first). -/
def micro (A P C : Buf R) (i j k0 klen K N bp : Nat) : Buf R :=
  let cs : Fin 4 → Vec4 R := fun r => load4 C ((i + (r : Nat)) * N + j)
  let d := kloop A P i k0 K bp cs klen
  store4 (store4 (store4 (store4 C (i * N + j) (d 0)) ((i + 1) * N + j) (d 1))
      ((i + 2) * N + j) (d 2)) ((i + 3) * N + j) (d 3)

/-- The `j`-micro-block loop of `matmul_neon` (line 67,
`for (j = j0; j < j_end; j += 4)`): after `m` iterations the micro-kernel
has run at `j = j0, j0+4, ...`; `bp` starts at the head of the packed
panel and advances by `k_len * 4` per block (line 91). -/
def jblocks (A P C : Buf R) (i j0 k0 klen K N : Nat) : Nat → Buf R
  | 0 => C
  | m + 1 => micro A P (jblocks A P C i j0 k0 klen K N m) i (j0 + 4 * m) k0 klen K N (4 * (m * klen))

/-- The `i`-micro-block loop of `matmul_neon` (line 65,
`for (i = i0; i < i_end; i += 4)`): after `m` iterations the `j`-loop has
run for rows `i0, i0+4, ...`. -/
def iblocks (A P C : Buf R) (i0 j0 jcnt k0 klen K N : Nat) : Nat → Buf R
  | 0 => C
  | m + 1 => jblocks A P (iblocks A P C i0 j0 jcnt k0 klen K N m) (i0 + 4 * m) j0 k0 klen K N jcnt

/-- The memory `matmul_neon` touches: the caller buffers `A`, `B`, `C`
and the call-private packed-B scratch `P` (`std::vector<float>
packed_B(TILE*TILE)`), plus a ghost counter of `pack_B_tile` invocations. -/
structure St (R : Type) where
  A : Buf R
  B : Buf R
  C : Buf R
  P : Buf R
  packs : Nat

/-- The `k0` tile loop of `matmul_neon` (line 55,
`for (k0 = 0; k0 < K; k0 += TILE)`): each iteration computes the ragged
tile bounds, packs the B tile, and sweeps the 4×4 micro-blocks. -/
def ktile (M K N i0 j0 : Nat) (s : St R) : Nat → St R
  | 0 => s
  | m + 1 =>
    let t := ktile M K N i0 j0 s m
    let k0 := TILE * m
    let i_end := min (i0 + TILE) M
    let j_end := min (j0 + TILE) N
    let k_end := min (k0 + TILE) K
    let klen := k_end - k0
    let Pn := pack_B_tile t.B t.P k0 k_end j0 j_end N
    let Cn := iblocks t.A Pn t.C i0 j0 ((j_end - j0 + 3) / 4) k0 klen K N ((i_end - i0 + 3) / 4)
    ⟨t.A, t.B, Cn, Pn, t.packs + 1⟩

/-- The `j0` tile loop of `matmul_neon` (line 54). -/
def jtile (M K N i0 : Nat) (s : St R) : Nat → St R
  | 0 => s
  | m + 1 => ktile M K N i0 (TILE * m) (jtile M K N i0 s m) (cdiv K TILE)

/-- The `i0` tile loop of `matmul_neon` (line 53). -/
def itile (M K N : Nat) (s : St R) : Nat → St R
  | 0 => s
  | m + 1 => jtile M K N (TILE * m) (itile M K N s m) (cdiv N TILE)

/-- `matmul_neon(A, B, C, M, K, N)` (src/tutorial_1/src/matmul_neon.cpp
lines 47-97): zero `C[0..M*N)`, allocate the zero-initialised scratch
(`std::vector` value-initialises), and run the three tile loops. -/
def matmul_neon (A B C : Buf R) (M K N : Nat) : St R :=
  itile M K N ⟨A, B, zeroRegion C (M * N), fun _ => 0, 0⟩ (cdiv M TILE)

/-- The accumulator loop of the naive kernel:
`for (k = 0; k < K; ++k) sum += A[i*K+k] * B[k*N+j];`. -/
def kSum (A B : Buf R) (i j K N : Nat) : Nat → R
  | 0 => 0
  | m + 1 => kSum A B i j K N m + A (i * K + m) * B (m * N + j)

/-- Inner `j`-loop of `matmul_naive`: after `m` iterations,
`C[i*N+j] = sum` has been assigned for `j = 0..m-1`. -/
def naive_j (A B C : Buf R) (i K N : Nat) : Nat → Buf R
  | 0 => C
  | m + 1 => upd (naive_j A B C i K N m) (i * N + m) (kSum A B i m K N K)

/-- Outer `i`-loop of `matmul_naive`. -/
def naive_i (A B C : Buf R) (K N : Nat) : Nat → Buf R
  | 0 => C
  | m + 1 => naive_j A B (naive_i A B C K N m) m K N N

/-- `matmul_naive(A, B, C, M, K, N)`
(src/tutorial_1/src/matmul_tiled_2d.cpp lines 145-155): the naive ijk
triple loop, `C[i*N+j] = Σ_k A[i*K+k] * B[k*N+j]`. -/
def matmul_naive (A B C : Buf R) (M K N : Nat) : Buf R := naive_i A B C K N M

/-- `matmul_naive(A, B, C, N)`
(src/tutorial_1_topdown/src/matmul_naive.cpp lines 11-21): the square
variant; its loops are the M,K,N loops at `M = K = N`. -/
def matmul_naive_sq (A B C : Buf R) (N : Nat) : Buf R := matmul_naive A B C N N N

/-- Innermost `j`-loop of the scalar tiled kernels: after `m` iterations,
`C[i*N+j] += a_ik * B[k*N+j]` has run for `j = lo..lo+m-1`
(`a_ik = A[i*N+k]`; the square kernels read `A` with stride `N`). -/
def addRange (A B C : Buf R) (i k lo N : Nat) : Nat → Buf R
  | 0 => C
  | m + 1 =>
    addAt (addRange A B C i k lo N m) (i * N + (lo + m)) (A (i * N + k) * B (k * N + (lo + m)))

/-- The `k`-loop of the scalar tiled kernels: after `m` iterations the
inner `j`-loop has run for `k = k0..k0+m-1`. -/
def kRun (A B C : Buf R) (i k0 lo len N : Nat) : Nat → Buf R
  | 0 => C
  | m + 1 => addRange A B (kRun A B C i k0 lo len N m) i (k0 + m) lo N len

/-- The `i`-loop of the scalar tiled kernels: after `m` iterations the
`k`-loop has run for rows `i0..i0+m-1`. -/
def iRun (A B C : Buf R) (i0 k0 klen lo len N : Nat) : Nat → Buf R
  | 0 => C
  | m + 1 => kRun A B (iRun A B C i0 k0 klen lo len N m) (i0 + m) k0 lo len N klen

/-- The `k0` tile loop of the scalar tiled kernels
(`for (k0 = 0; k0 < N; k0 += TILE)`): iteration `m` runs rows
`i0..i0+icnt-1` over the `k`-range `[TILE*m, min(TILE*m+TILE, N))`. -/
def kTileRun (A B C : Buf R) (i0 icnt lo len N : Nat) : Nat → Buf R
  | 0 => C
  | m + 1 =>
    iRun A B (kTileRun A B C i0 icnt lo len N m) i0 (TILE * m)
      (min (TILE * m + TILE) N - TILE * m) lo len N icnt

/-- The `j0` tile loop of `matmul_tiled_2d`. -/
def jTileRun (A B C : Buf R) (i0 icnt N : Nat) : Nat → Buf R
  | 0 => C
  | m + 1 =>
    kTileRun A B (jTileRun A B C i0 icnt N m) i0 icnt (TILE * m)
      (min (TILE * m + TILE) N - TILE * m) N (cdiv N TILE)

/-- The `i0` tile loop of `matmul_tiled_2d`. -/
def iTileRun (A B C : Buf R) (N : Nat) : Nat → Buf R
  | 0 => C
  | m + 1 =>
    jTileRun A B (iTileRun A B C N m) (TILE * m) (min (TILE * m + TILE) N - TILE * m) N
      (cdiv N TILE)

/-- `matmul_tiled_1d(A, B, C, N)`
(src/tutorial_1/src/matmul_tiled_neon.cpp lines 117-130): zero `C`, then
for each `k`-strip run the full `i` (all `N` rows) and `j` (columns
`0..N`) loops. -/
def matmul_tiled_1d (A B C : Buf R) (N : Nat) : Buf R :=
  kTileRun A B (zeroRegion C (N * N)) 0 N 0 N N (cdiv N TILE)

/-- `matmul_tiled_2d(A, B, C, N)`
(src/tutorial_1/src/matmul_tiled_2d.cpp lines 19-40): zero `C`, then
tile all three dimensions with the ikj order inside each tile. -/
def matmul_tiled_2d (A B C : Buf R) (N : Nat) : Buf R :=
  iTileRun A B (zeroRegion C (N * N)) N (cdiv N TILE)

/-- The 8-wide unrolled part of the inner loop of `matmul_tiled`
(src/tutorial_1/src/matmul_tiled.cpp lines 36-45): after `t` iterations,
the eight accumulate statements have run at `jj = 0, 8, ..., 8*(t-1)`
(positions `c_row[jj+0] .. c_row[jj+7]`, `c_row = &C[i*N+j0]`). -/
def unroll8 (A B C : Buf R) (i k j0 N : Nat) : Nat → Buf R
  | 0 => C
  | t + 1 =>
    let c0 := unroll8 A B C i k j0 N t
    let c1 := addAt c0 (i * N + (j0 + 8 * t)) (A (i * N + k) * B (k * N + (j0 + 8 * t)))
    let c2 := addAt c1 (i * N + (j0 + 8 * t + 1)) (A (i * N + k) * B (k * N + (j0 + 8 * t + 1)))
    let c3 := addAt c2 (i * N + (j0 + 8 * t + 2)) (A (i * N + k) * B (k * N + (j0 + 8 * t + 2)))
    let c4 := addAt c3 (i * N + (j0 + 8 * t + 3)) (A (i * N + k) * B (k * N + (j0 + 8 * t + 3)))
    let c5 := addAt c4 (i * N + (j0 + 8 * t + 4)) (A (i * N + k) * B (k * N + (j0 + 8 * t + 4)))
    let c6 := addAt c5 (i * N + (j0 + 8 * t + 5)) (A (i * N + k) * B (k * N + (j0 + 8 * t + 5)))
    let c7 := addAt c6 (i * N + (j0 + 8 * t + 6)) (A (i * N + k) * B (k * N + (j0 + 8 * t + 6)))
    addAt c7 (i * N + (j0 + 8 * t + 7)) (A (i * N + k) * B (k * N + (j0 + 8 * t + 7)))

/-- The full inner row operation of `matmul_tiled` for one `(i, k)` pair
(lines 35-48): the 8-wide unrolled loop (`width / 8` trips) followed by
the scalar remainder loop (`width % 8` trips starting at
`jj = 8*(width/8)`); the remainder loop body is the single accumulate
statement, i.e. an `addRange` from column `j0 + 8*(width/8)`. -/
def t8row (A B C : Buf R) (i k j0 width N : Nat) : Buf R :=
  addRange A B (unroll8 A B C i k j0 N (width / 8)) i k (j0 + 8 * (width / 8)) N (width % 8)

/-- The `k`-loop of `matmul_tiled` (line 32). -/
def t8k (A B C : Buf R) (i k0 j0 width N : Nat) : Nat → Buf R
  | 0 => C
  | m + 1 => t8row A B (t8k A B C i k0 j0 width N m) i (k0 + m) j0 width N

/-- The `i`-loop of `matmul_tiled` (line 30). -/
def t8i (A B C : Buf R) (i0 k0 klen j0 width N : Nat) : Nat → Buf R
  | 0 => C
  | m + 1 => t8k A B (t8i A B C i0 k0 klen j0 width N m) (i0 + m) k0 j0 width N klen

/-- The `k0` tile loop of `matmul_tiled` (line 27). -/
def t8ktile (A B C : Buf R) (i0 icnt j0 width N : Nat) : Nat → Buf R
  | 0 => C
  | m + 1 =>
    t8i A B (t8ktile A B C i0 icnt j0 width N m) i0 (TILE * m)
      (min (TILE * m + TILE) N - TILE * m) j0 width N icnt

/-- The `j0` tile loop of `matmul_tiled` (line 23). -/
def t8jtile (A B C : Buf R) (i0 icnt N : Nat) : Nat → Buf R
  | 0 => C
  | m + 1 =>
    t8ktile A B (t8jtile A B C i0 icnt N m) i0 icnt (TILE * m)
      (min (TILE * m + TILE) N - TILE * m) N (cdiv N TILE)

/-- The `i0` tile loop of `matmul_tiled` (line 22). -/
def t8itile (A B C : Buf R) (N : Nat) : Nat → Buf R
  | 0 => C
  | m + 1 =>
    t8jtile A B (t8itile A B C N m) (TILE * m) (min (TILE * m + TILE) N - TILE * m) N
      (cdiv N TILE)

/-- `matmul_tiled(A, B, C, N)` (src/tutorial_1/src/matmul_tiled.cpp
lines 19-54): zero `C`, then the 2D tile loops with the 8-wide unrolled
inner loop plus scalar remainder. -/
def matmul_tiled (A B C : Buf R) (N : Nat) : Buf R :=
  t8itile A B (zeroRegion C (N * N)) N (cdiv N TILE)

/-- Test buffer: ones on the first `n` cells, zero beyond (so that every
out-of-bounds read of the C code returns 0 and counterexamples do not
hinge on unspecified out-of-bounds data). -/
def onesLT (n : Nat) : Buf R := fun p => if p < n then 1 else 0

/-- The all-zero buffer. -/
def zeroBuf : Buf R := fun _ => 0

theorem upd_self (b : Buf R) (p : Nat) (v : R) : upd b p v p = v := by
  simp [upd]

theorem upd_ne (b : Buf R) (p q : Nat) (v : R) (h : q ≠ p) : upd b p v q = b q := by
  simp [upd, h]

theorem zeroRegion_lt (b : Buf R) (len q : Nat) (h : q < len) : zeroRegion b len q = 0 := by
  simp [zeroRegion, h]

theorem zeroRegion_ge (b : Buf R) (len q : Nat) (h : len ≤ q) : zeroRegion b len q = b q := by
  simp [zeroRegion, Nat.not_lt.mpr h]

theorem load4_at (b : Buf R) (p : Nat) (l : Fin 4) : load4 b p l = b (p + (l : Nat)) := rfl

theorem store4_at (b : Buf R) (p l : Nat) (v : Vec4 R) (hl : l < 4) :
    store4 b p v (p + l) = v ⟨l, hl⟩ := by
  unfold store4 upd
  interval_cases l <;> split_ifs <;> first | rfl | omega

theorem store4_ne (b : Buf R) (p q : Nat) (v : Vec4 R) (h : ∀ l, l < 4 → q ≠ p + l) :
    store4 b p v q = b q := by
  have h0 := h 0 (by omega)
  have h1 := h 1 (by omega)
  have h2 := h 2 (by omega)
  have h3 := h 3 (by omega)
  unfold store4 upd
  split_ifs <;> first | rfl | omega

theorem row_lt_addr {N r c r2 c2 : Nat} (hc : c < N) (h1 : r < r2) :
    r * N + c < r2 * N + c2 := by
  have h6 : r * N + c < (r + 1) * N := by
    calc r * N + c < r * N + N := Nat.add_lt_add_left hc _
      _ = (r + 1) * N := by ring
  exact lt_of_lt_of_le h6 (le_trans (Nat.mul_le_mul_right N h1) (Nat.le_add_right _ _))

theorem rowcol_inj {N r c r2 c2 : Nat} (hc : c < N) (hc2 : c2 < N)
    (h : r * N + c = r2 * N + c2) : r = r2 ∧ c = c2 := by
  have hr : r = r2 := by
    rcases Nat.lt_trichotomy r r2 with h1 | h1 | h1
    · exact absurd h (Nat.ne_of_lt (row_lt_addr hc h1))
    · exact h1
    · exact absurd h.symm (Nat.ne_of_lt (row_lt_addr hc2 h1))
  subst hr
  exact ⟨rfl, Nat.add_left_cancel h⟩

theorem le_tile_cdiv (n : Nat) : n ≤ TILE * cdiv n TILE := by
  simp only [cdiv, TILE]
  omega

theorem tile_lt_of_lt_cdiv {m n : Nat} (h : m < cdiv n TILE) : TILE * m < n := by
  simp only [cdiv, TILE] at h ⊢
  omega

theorem packK_frame (B P : Buf R) (k0 j N base m q : Nat)
    (h : q < base ∨ base + 4 * m ≤ q) : packK B P k0 j N base m q = P q := by
  induction m with
  | zero => rfl
  | succ m ih =>
    unfold packK
    rw [store4_ne]
    · exact ih (by omega)
    · intro l hl
      omega

theorem packK_at (B P : Buf R) (k0 j N base m kc l : Nat) (hk : kc < m) (hl : l < 4) :
    packK B P k0 j N base m (base + 4 * kc + l) = B ((k0 + kc) * N + j + l) := by
  induction m with
  | zero => omega
  | succ m ih =>
    unfold packK
    rcases Nat.lt_or_ge kc m with h1 | h1
    · rw [store4_ne]
      · exact ih h1
      · intro l2 hl2
        omega
    · have hk2 : kc = m := by omega
      subst hk2
      have he : base + 4 * kc + l = (base + 4 * kc) + l := by omega
      rw [he, store4_at _ _ _ _ hl]
      rfl

theorem packJ_frame (B P : Buf R) (k0 klen j0 N m q : Nat) (h : 4 * (m * klen) ≤ q) :
    packJ B P k0 klen j0 N m q = P q := by
  induction m with
  | zero => rfl
  | succ m ih =>
    unfold packJ
    rw [packK_frame]
    · exact ih (by nlinarith)
    · right
      nlinarith

theorem packJ_at (B P : Buf R) (k0 klen j0 N m jc kc l : Nat)
    (hj : jc < m) (hk : kc < klen) (hl : l < 4) :
    packJ B P k0 klen j0 N m (4 * (jc * klen) + 4 * kc + l) =
      B ((k0 + kc) * N + (j0 + 4 * jc) + l) := by
  induction m with
  | zero => omega
  | succ m ih =>
    unfold packJ
    rcases Nat.lt_or_ge jc m with h1 | h1
    · rw [packK_frame]
      · exact ih h1
      · left
        have : jc + 1 ≤ m := h1
        nlinarith
    · have hj2 : jc = m := by omega
      subst hj2
      exact packK_at B _ k0 _ N _ klen kc l hk hl

theorem fin4_val0 : ((0 : Fin 4) : Nat) = 0 := rfl

theorem fin4_val1 : ((1 : Fin 4) : Nat) = 1 := rfl

theorem fin4_val2 : ((2 : Fin 4) : Nat) = 2 := rfl

theorem fin4_val3 : ((3 : Fin 4) : Nat) = 3 := rfl

theorem fin4_valmk (l : Nat) (hl : l < 4) : ((⟨l, hl⟩ : Fin 4) : Nat) = l := rfl

theorem kloop_val (A P : Buf R) (i k0 K bp : Nat) (cs : Fin 4 → Vec4 R) (m : Nat) (r l : Fin 4) :
    kloop A P i k0 K bp cs m r l =
      cs r l + ∑ t in Finset.range m, A ((i + (r : Nat)) * K + (k0 + t)) * P (bp + 4 * t + (l : Nat)) := by
  induction m with
  | zero => simp [kloop]
  | succ m ih =>
    simp only [kloop, vfma, load4]
    rw [ih, Finset.sum_range_succ]
    ring

theorem micro_at (A P C : Buf R) (i j k0 klen K N bp : Nat) (r l : Nat)
    (hr : r < 4) (hl : l < 4) (hjN : j + 4 ≤ N) :
    micro A P C i j k0 klen K N bp ((i + r) * N + (j + l)) =
      C ((i + r) * N + (j + l)) +
        ∑ t in Finset.range klen, A ((i + r) * K + (k0 + t)) * P (bp + 4 * t + l) := by
  have hne : ∀ s l2 : Nat, s < 4 → l2 < 4 → s ≠ r →
      (i + r) * N + (j + l) ≠ (i + s) * N + j + l2 := by
    intro s l2 hs hl2 hsr heq
    have h2 : (i + s) * N + j + l2 = (i + s) * N + (j + l2) := by ring
    rw [h2] at heq
    rcases rowcol_inj (by omega) (by omega) heq with ⟨h3, h4⟩
    omega
  simp only [micro]
  interval_cases r
  · rw [store4_ne _ _ _ _ (fun l2 hl2 => hne 3 l2 (by omega) hl2 (by omega)),
        store4_ne _ _ _ _ (fun l2 hl2 => hne 2 l2 (by omega) hl2 (by omega)),
        store4_ne _ _ _ _ (fun l2 hl2 => hne 1 l2 (by omega) hl2 (by omega)),
        show (i + 0) * N + (j + l) = (i * N + j) + l by ring,
        store4_at _ _ _ _ hl, kloop_val]
    simp [load4, fin4_val0, fin4_valmk, Nat.add_assoc]
  · rw [store4_ne _ _ _ _ (fun l2 hl2 => hne 3 l2 (by omega) hl2 (by omega)),
        store4_ne _ _ _ _ (fun l2 hl2 => hne 2 l2 (by omega) hl2 (by omega)),
        show (i + 1) * N + (j + l) = ((i + 1) * N + j) + l by ring,
        store4_at _ _ _ _ hl, kloop_val]
    simp [load4, fin4_val1, fin4_valmk, Nat.add_assoc]
  · rw [store4_ne _ _ _ _ (fun l2 hl2 => hne 3 l2 (by omega) hl2 (by omega)),
        show (i + 2) * N + (j + l) = ((i + 2) * N + j) + l by ring,
        store4_at _ _ _ _ hl, kloop_val]
    simp [load4, fin4_val2, fin4_valmk, Nat.add_assoc]
  · rw [show (i + 3) * N + (j + l) = ((i + 3) * N + j) + l by ring,
        store4_at _ _ _ _ hl, kloop_val]
    simp [load4, fin4_val3, fin4_valmk, Nat.add_assoc]

theorem micro_frame (A P C : Buf R) (i j k0 klen K N bp q : Nat)
    (h : ∀ s l2 : Nat, s < 4 → l2 < 4 → q ≠ (i + s) * N + j + l2) :
    micro A P C i j k0 klen K N bp q = C q := by
  simp only [micro]
  rw [store4_ne _ _ _ _ (fun l2 hl2 => h 3 l2 (by omega) hl2),
      store4_ne _ _ _ _ (fun l2 hl2 => h 2 l2 (by omega) hl2),
      store4_ne _ _ _ _ (fun l2 hl2 => h 1 l2 (by omega) hl2),
      store4_ne _ _ _ _ (fun l2 hl2 => by simpa using h 0 l2 (by omega) hl2)]

theorem jblocks_frame (A P C : Buf R) (i j0 k0 klen K N m q : Nat)
    (h : ∀ s jb l2 : Nat, s < 4 → jb < m → l2 < 4 → q ≠ (i + s) * N + (j0 + 4 * jb + l2)) :
    jblocks A P C i j0 k0 klen K N m q = C q := by
  induction m with
  | zero => rfl
  | succ m ih =>
    simp only [jblocks]
    rw [micro_frame]
    · exact ih (fun s jb l2 hs hjb hl2 => h s jb l2 hs (by omega) hl2)
    · intro s l2 hs hl2 heq
      exact h s m l2 hs (by omega) hl2 (heq.trans (by ring))

theorem jblocks_at (A P C : Buf R) (i j0 k0 klen K N m : Nat) (jb r l : Nat)
    (hjb : jb < m) (hr : r < 4) (hl : l < 4) (hm : j0 + 4 * m ≤ N) :
    jblocks A P C i j0 k0 klen K N m ((i + r) * N + (j0 + 4 * jb + l)) =
      C ((i + r) * N + (j0 + 4 * jb + l)) +
        ∑ t in Finset.range klen, A ((i + r) * K + (k0 + t)) * P (4 * (jb * klen) + 4 * t + l) := by
  induction m with
  | zero => omega
  | succ m ih =>
    simp only [jblocks]
    rcases Nat.lt_or_ge jb m with h1 | h1
    · rw [micro_frame]
      · exact ih h1 (by omega)
      · intro s l2 hs hl2 heq
        have h2 : (i + s) * N + (j0 + 4 * m) + l2 = (i + s) * N + (j0 + 4 * m + l2) := by ring
        rw [h2] at heq
        rcases rowcol_inj (by omega) (by omega) heq with ⟨h3, h4⟩
        omega
    · have hj2 : jb = m := by omega
      subst hj2
      rw [show (i + r) * N + (j0 + 4 * jb + l) = (i + r) * N + ((j0 + 4 * jb) + l) by ring,
        micro_at A P _ i (j0 + 4 * jb) k0 klen K N _ r l hr hl (by omega)]
      rw [jblocks_frame]
      intro s jb2 l2 hs hjb2 hl2 heq
      have hcol : j0 + 4 * jb + l < N := by omega
      have hcol2 : j0 + 4 * jb2 + l2 < N := by omega
      rcases rowcol_inj hcol hcol2 heq with ⟨h3, h4⟩
      omega

theorem iblocks_frame (A P C : Buf R) (i0 j0 jcnt k0 klen K N m q : Nat)
    (h : ∀ ib s jb l2 : Nat, ib < m → s < 4 → jb < jcnt → l2 < 4 →
      q ≠ (i0 + 4 * ib + s) * N + (j0 + 4 * jb + l2)) :
    iblocks A P C i0 j0 jcnt k0 klen K N m q = C q := by
  induction m with
  | zero => rfl
  | succ m ih =>
    simp only [iblocks]
    rw [jblocks_frame]
    · exact ih (fun ib s jb l2 hib hs hjb hl2 => h ib s jb l2 (by omega) hs hjb hl2)
    · intro s jb l2 hs hjb hl2 heq
      exact h m s jb l2 (by omega) hs hjb hl2 heq

theorem iblocks_at (A P C : Buf R) (i0 j0 jcnt k0 klen K N m : Nat) (ib jb r l : Nat)
    (hib : ib < m) (hjb : jb < jcnt) (hr : r < 4) (hl : l < 4) (hm : j0 + 4 * jcnt ≤ N) :
    iblocks A P C i0 j0 jcnt k0 klen K N m ((i0 + 4 * ib + r) * N + (j0 + 4 * jb + l)) =
      C ((i0 + 4 * ib + r) * N + (j0 + 4 * jb + l)) +
        ∑ t in Finset.range klen,
          A ((i0 + 4 * ib + r) * K + (k0 + t)) * P (4 * (jb * klen) + 4 * t + l) := by
  induction m with
  | zero => omega
  | succ m ih =>
    simp only [iblocks]
    rcases Nat.lt_or_ge ib m with h1 | h1
    · rw [jblocks_frame]
      · exact ih h1
      · intro s jb2 l2 hs hjb2 hl2 heq
        have hcol : j0 + 4 * jb + l < N := by omega
        have hcol2 : j0 + 4 * jb2 + l2 < N := by omega
        rcases rowcol_inj hcol hcol2 heq with ⟨h3, h4⟩
        omega
    · have hi2 : ib = m := by omega
      subst hi2
      rw [show (i0 + 4 * ib + r) * N + (j0 + 4 * jb + l) = ((i0 + 4 * ib) + r) * N + (j0 + 4 * jb + l) by ring,
        jblocks_at A P _ (i0 + 4 * ib) j0 k0 klen K N jcnt jb r l hjb hr hl hm]
      rw [iblocks_frame]
      intro ib2 s jb2 l2 hib2 hs hjb2 hl2 heq
      have hcol : j0 + 4 * jb + l < N := by omega
      have hcol2 : j0 + 4 * jb2 + l2 < N := by omega
      rcases rowcol_inj hcol hcol2 heq with ⟨h3, h4⟩
      omega

theorem ktile_AB (M K N i0 j0 : Nat) (s : St R) (m : Nat) :
    (ktile M K N i0 j0 s m).A = s.A ∧ (ktile M K N i0 j0 s m).B = s.B := by
  induction m with
  | zero => exact ⟨rfl, rfl⟩
  | succ m ih => simpa only [ktile] using ih

theorem jtile_AB (M K N i0 : Nat) (s : St R) (m : Nat) :
    (jtile M K N i0 s m).A = s.A ∧ (jtile M K N i0 s m).B = s.B := by
  induction m with
  | zero => exact ⟨rfl, rfl⟩
  | succ m ih =>
    simp only [jtile]
    rw [(ktile_AB _ _ _ _ _ _ _).1, (ktile_AB _ _ _ _ _ _ _).2]
    exact ih

theorem itile_AB (M K N : Nat) (s : St R) (m : Nat) :
    (itile M K N s m).A = s.A ∧ (itile M K N s m).B = s.B := by
  induction m with
  | zero => exact ⟨rfl, rfl⟩
  | succ m ih =>
    simp only [itile]
    rw [(jtile_AB _ _ _ _ _ _).1, (jtile_AB _ _ _ _ _ _).2]
    exact ih

theorem ktile_packs (M K N i0 j0 : Nat) (s : St R) (m : Nat) :
    (ktile M K N i0 j0 s m).packs = s.packs + m := by
  induction m with
  | zero => rfl
  | succ m ih =>
    simp only [ktile]
    omega

theorem jtile_packs (M K N i0 : Nat) (s : St R) (m : Nat) :
    (jtile M K N i0 s m).packs = s.packs + m * cdiv K TILE := by
  induction m with
  | zero => simp [jtile]
  | succ m ih =>
    simp only [jtile]
    rw [ktile_packs, ih]
    ring

theorem itile_packs (M K N : Nat) (s : St R) (m : Nat) :
    (itile M K N s m).packs = s.packs + m * (cdiv N TILE * cdiv K TILE) := by
  induction m with
  | zero => simp [itile]
  | succ m ih =>
    simp only [itile]
    rw [jtile_packs, ih]
    ring

theorem pack_frame_tile (B P : Buf R) (k0 k_end j0 j_end N q : Nat)
    (h1 : k_end - k0 ≤ TILE) (h2 : j_end - j0 ≤ TILE) (hq : TILE * TILE ≤ q) :
    pack_B_tile B P k0 k_end j0 j_end N q = P q := by
  unfold pack_B_tile
  apply packJ_frame
  simp only [TILE] at h1 h2 hq
  have hj : (j_end - j0 + 3) / 4 ≤ 16 := by omega
  have hm : (j_end - j0 + 3) / 4 * (k_end - k0) ≤ 16 * 64 := Nat.mul_le_mul hj h1
  omega

theorem ktile_P0 (M K N i0 j0 : Nat) (s : St R) (m : Nat)
    (hP : ∀ q, TILE * TILE ≤ q → s.P q = 0) :
    ∀ q, TILE * TILE ≤ q → (ktile M K N i0 j0 s m).P q = 0 := by
  induction m with
  | zero => exact hP
  | succ m ih =>
    intro q hq
    simp only [ktile]
    rw [pack_frame_tile _ _ _ _ _ _ _ _ (by omega) (by omega) hq]
    exact ih q hq

theorem jtile_P0 (M K N i0 : Nat) (s : St R) (m : Nat)
    (hP : ∀ q, TILE * TILE ≤ q → s.P q = 0) :
    ∀ q, TILE * TILE ≤ q → (jtile M K N i0 s m).P q = 0 := by
  induction m with
  | zero => exact hP
  | succ m ih =>
    simp only [jtile]
    exact ktile_P0 _ _ _ _ _ _ _ ih

theorem itile_P0 (M K N : Nat) (s : St R) (m : Nat)
    (hP : ∀ q, TILE * TILE ≤ q → s.P q = 0) :
    ∀ q, TILE * TILE ≤ q → (itile M K N s m).P q = 0 := by
  induction m with
  | zero => exact hP
  | succ m ih =>
    simp only [itile]
    exact jtile_P0 _ _ _ _ _ _ ih

theorem sum_range_add_helper (f : Nat → R) (a b : Nat) :
    ∑ k in Finset.range (a + b), f k =
      (∑ k in Finset.range a, f k) + ∑ t in Finset.range b, f (a + t) := by
  induction b with
  | zero => simp
  | succ b ih =>
    rw [show a + (b + 1) = (a + b) + 1 by omega, Finset.sum_range_succ, ih,
      Finset.sum_range_succ]
    ring

theorem ktile_one (M K N i0 j0 k0 : Nat) (t : St R)
    (hi4 : (min (i0 + TILE) M - i0) % 4 = 0)
    (hj4 : (min (j0 + TILE) N - j0) % 4 = 0)
    (r c : Nat) (hr1 : i0 ≤ r) (hr2 : r < min (i0 + TILE) M)
    (hc1 : j0 ≤ c) (hc2 : c < min (j0 + TILE) N) :
    iblocks t.A (pack_B_tile t.B t.P k0 (min (k0 + TILE) K) j0 (min (j0 + TILE) N) N) t.C
        i0 j0 ((min (j0 + TILE) N - j0 + 3) / 4) k0 (min (k0 + TILE) K - k0) K N
        ((min (i0 + TILE) M - i0 + 3) / 4) (r * N + c) =
      t.C (r * N + c) +
        ∑ t2 in Finset.range (min (k0 + TILE) K - k0),
          t.A (r * K + (k0 + t2)) * t.B ((k0 + t2) * N + c) := by
  obtain ⟨ib, rr, hib, hrr, hreq⟩ :
      ∃ ib rr, ib < (min (i0 + TILE) M - i0 + 3) / 4 ∧ rr < 4 ∧ r = i0 + 4 * ib + rr := by
    refine ⟨(r - i0) / 4, (r - i0) % 4, ?_, ?_, ?_⟩ <;> omega
  obtain ⟨jb, ll, hjb, hll, hceq⟩ :
      ∃ jb ll, jb < (min (j0 + TILE) N - j0 + 3) / 4 ∧ ll < 4 ∧ c = j0 + 4 * jb + ll := by
    refine ⟨(c - j0) / 4, (c - j0) % 4, ?_, ?_, ?_⟩ <;> omega
  subst hreq
  subst hceq
  rw [iblocks_at]
  · congr 1
    apply Finset.sum_congr rfl
    intro t2 ht2
    unfold pack_B_tile
    rw [packJ_at t.B t.P k0 (min (k0 + TILE) K - k0) j0 N ((min (j0 + TILE) N - j0 + 3) / 4)
      jb t2 ll hjb (Finset.mem_range.mp ht2) hll]
    rw [show (k0 + t2) * N + (j0 + 4 * jb) + ll = (k0 + t2) * N + (j0 + 4 * jb + ll) by ring]
  · exact hib
  · exact hjb
  · exact hrr
  · exact hll
  · omega

theorem ktile_at (M K N i0 j0 : Nat) (s : St R) (m : Nat)
    (hmk : m ≤ cdiv K TILE)
    (hi4 : (min (i0 + TILE) M - i0) % 4 = 0)
    (hj4 : (min (j0 + TILE) N - j0) % 4 = 0)
    (r c : Nat) (hr1 : i0 ≤ r) (hr2 : r < min (i0 + TILE) M)
    (hc1 : j0 ≤ c) (hc2 : c < min (j0 + TILE) N) :
    (ktile M K N i0 j0 s m).C (r * N + c) =
      s.C (r * N + c) +
        ∑ k in Finset.range (min (TILE * m) K), s.A (r * K + k) * s.B (k * N + c) := by
  induction m with
  | zero => simp [ktile]
  | succ m ih =>
    have hK : TILE * m < K := tile_lt_of_lt_cdiv (by omega)
    simp only [ktile]
    rw [ktile_one M K N i0 j0 (TILE * m) (ktile M K N i0 j0 s m) hi4 hj4 r c hr1 hr2 hc1 hc2]
    rw [(ktile_AB M K N i0 j0 s m).1, (ktile_AB M K N i0 j0 s m).2, ih (by omega)]
    have hmin1 : min (TILE * m) K = TILE * m := Nat.min_eq_left (le_of_lt hK)
    have hsplit : min (TILE * (m + 1)) K = TILE * m + (min (TILE * m + TILE) K - TILE * m) := by
      have h1 : TILE * (m + 1) = TILE * m + TILE := by ring
      rw [h1]
      have h2 : TILE * m ≤ min (TILE * m + TILE) K :=
        le_min (Nat.le_add_right _ _) (le_of_lt hK)
      omega
    rw [hmin1, hsplit, sum_range_add_helper]
    ring

theorem ktile_frame (M K N i0 j0 : Nat) (s : St R) (m q : Nat)
    (hi4 : (min (i0 + TILE) M - i0) % 4 = 0)
    (hj4 : (min (j0 + TILE) N - j0) % 4 = 0)
    (hq : ∀ r c, i0 ≤ r → r < min (i0 + TILE) M → j0 ≤ c → c < min (j0 + TILE) N →
      q ≠ r * N + c) :
    (ktile M K N i0 j0 s m).C q = s.C q := by
  induction m with
  | zero => rfl
  | succ m ih =>
    simp only [ktile]
    rw [iblocks_frame]
    · exact ih
    · intro ib ss jb l2 hib hss hjb hl2
      exact hq (i0 + 4 * ib + ss) (j0 + 4 * jb + l2) (by omega) (by omega) (by omega) (by omega)

theorem tile4 : TILE % 4 = 0 := rfl

theorem jtile_frame (M K N i0 : Nat) (s : St R) (m q : Nat)
    (hi0 : i0 % 4 = 0) (hM4 : M % 4 = 0) (hN4 : N % 4 = 0)
    (hq : ∀ r c, i0 ≤ r → r < min (i0 + TILE) M → c < min (TILE * m) N → q ≠ r * N + c) :
    (jtile M K N i0 s m).C q = s.C q := by
  induction m with
  | zero => rfl
  | succ m ih =>
    have hplus : TILE * (m + 1) = TILE * m + TILE := by ring
    have hm4 : TILE * m % 4 = 0 := by
      have h1 : TILE * m = 4 * (16 * m) := by simp [TILE]; ring
      omega
    have hT4 := tile4
    simp only [jtile]
    rw [ktile_frame]
    · apply ih
      intro r c h1 h2 h3
      exact hq r c h1 h2 (by omega)
    · omega
    · omega
    · intro r c h1 h2 h3 h4
      exact hq r c h1 h2 (by omega)

theorem jtile_at (M K N i0 : Nat) (s : St R) (m : Nat)
    (hm : m ≤ cdiv N TILE) (hi0 : i0 % 4 = 0) (hM4 : M % 4 = 0) (hN4 : N % 4 = 0)
    (r c : Nat) (hr1 : i0 ≤ r) (hr2 : r < min (i0 + TILE) M) (hc : c < min (TILE * m) N) :
    (jtile M K N i0 s m).C (r * N + c) =
      s.C (r * N + c) + ∑ k in Finset.range K, s.A (r * K + k) * s.B (k * N + c) := by
  induction m with
  | zero =>
    exfalso
    have h0 : TILE * 0 = 0 := by ring
    rw [h0] at hc
    omega
  | succ m ih =>
    have hN : TILE * m < N := tile_lt_of_lt_cdiv (by omega)
    have hplus : TILE * (m + 1) = TILE * m + TILE := by ring
    have hm4 : TILE * m % 4 = 0 := by
      have h1 : TILE * m = 4 * (16 * m) := by simp [TILE]; ring
      omega
    have hT4 := tile4
    rw [hplus] at hc
    have hcN : c < N := (Nat.lt_min.mp hc).2
    simp only [jtile]
    rcases Nat.lt_or_ge c (TILE * m) with h1 | h1
    · rw [ktile_frame]
      · exact ih (by omega) (Nat.lt_min.mpr ⟨h1, hcN⟩)
      · omega
      · omega
      · intro r2 c2 hr21 hr22 hc21 hc22 heq
        have hcol2 : c2 < N := (Nat.lt_min.mp hc22).2
        rcases rowcol_inj hcN hcol2 heq with ⟨h3, h4⟩
        omega
    · rw [ktile_at M K N i0 (TILE * m) _ (cdiv K TILE) le_rfl (by omega) (by omega)
        r c hr1 hr2 h1 hc]
      rw [(jtile_AB M K N i0 s m).1, (jtile_AB M K N i0 s m).2]
      rw [jtile_frame M K N i0 s m _ hi0 hM4 hN4]
      · rw [Nat.min_eq_right (le_tile_cdiv K)]
      · intro r2 c2 hr21 hr22 hc2 heq
        have hcol2 : c2 < N := (Nat.lt_min.mp hc2).2
        rcases rowcol_inj hcN hcol2 heq with ⟨h3, h4⟩
        omega

theorem itile_frame (M K N : Nat) (s : St R) (m q : Nat)
    (hM4 : M % 4 = 0) (hN4 : N % 4 = 0)
    (hq : ∀ r c, r < min (TILE * m) M → c < N → q ≠ r * N + c) :
    (itile M K N s m).C q = s.C q := by
  induction m with
  | zero => rfl
  | succ m ih =>
    have hplus : TILE * (m + 1) = TILE * m + TILE := by ring
    have hm4 : TILE * m % 4 = 0 := by
      have h1 : TILE * m = 4 * (16 * m) := by simp [TILE]; ring
      omega
    simp only [itile]
    rw [jtile_frame]
    · apply ih
      intro r c h1 h2
      exact hq r c (by omega) h2
    · exact hm4
    · exact hM4
    · exact hN4
    · intro r c h1 h2 h3
      have hcN : c < N := (Nat.lt_min.mp h3).2
      exact hq r c (by omega) hcN

theorem itile_at (M K N : Nat) (s : St R) (m : Nat)
    (hm : m ≤ cdiv M TILE) (hM4 : M % 4 = 0) (hN4 : N % 4 = 0)
    (r c : Nat) (hr : r < min (TILE * m) M) (hc : c < N) :
    (itile M K N s m).C (r * N + c) =
      s.C (r * N + c) + ∑ k in Finset.range K, s.A (r * K + k) * s.B (k * N + c) := by
  induction m with
  | zero =>
    exfalso
    have h0 : TILE * 0 = 0 := by ring
    rw [h0] at hr
    omega
  | succ m ih =>
    have hM : TILE * m < M := tile_lt_of_lt_cdiv (by omega)
    have hplus : TILE * (m + 1) = TILE * m + TILE := by ring
    have hm4 : TILE * m % 4 = 0 := by
      have h1 : TILE * m = 4 * (16 * m) := by simp [TILE]; ring
      omega
    rw [hplus] at hr
    have hrM : r < M := (Nat.lt_min.mp hr).2
    simp only [itile]
    rcases Nat.lt_or_ge r (TILE * m) with h1 | h1
    · rw [jtile_frame]
      · exact ih (by omega) (Nat.lt_min.mpr ⟨h1, hrM⟩)
      · exact hm4
      · exact hM4
      · exact hN4
      · intro r2 c2 hr21 hr22 hc2 heq
        have hcol2 : c2 < N := (Nat.lt_min.mp hc2).2
        rcases rowcol_inj hc hcol2 heq with ⟨h3, h4⟩
        omega
    · rw [jtile_at M K N (TILE * m) _ (cdiv N TILE) le_rfl hm4 hM4 hN4 r c h1 hr
        (by rw [Nat.min_eq_right (le_tile_cdiv N)]; exact hc)]
      rw [(itile_AB M K N s m).1, (itile_AB M K N s m).2]
      rw [itile_frame M K N s m _ hM4 hN4]
      intro r2 c2 hr2 hc2 heq
      have hrow2 : r2 < M := (Nat.lt_min.mp hr2).2
      rcases rowcol_inj hc hc2 heq with ⟨h3, h4⟩
      omega

theorem neon_C_at (A B C : Buf R) (M K N : Nat) (hM4 : M % 4 = 0) (hN4 : N % 4 = 0)
    (i j : Nat) (hi : i < M) (hj : j < N) :
    (matmul_neon A B C M K N).C (i * N + j) =
      ∑ k in Finset.range K, A (i * K + k) * B (k * N + j) := by
  unfold matmul_neon
  rw [itile_at M K N _ (cdiv M TILE) le_rfl hM4 hN4 i j
    (by rw [Nat.min_eq_right (le_tile_cdiv M)]; exact hi) hj]
  have hlt : i * N + j < M * N := by
    have h := @row_lt_addr N i j M 0 hj hi
    omega
  show zeroRegion C (M * N) (i * N + j) + _ = _
  rw [zeroRegion_lt _ _ _ hlt, zero_add]

theorem neon_C_frame (A B C : Buf R) (M K N : Nat) (hM4 : M % 4 = 0) (hN4 : N % 4 = 0)
    (p : Nat) (hp : M * N ≤ p) : (matmul_neon A B C M K N).C p = C p := by
  unfold matmul_neon
  rw [itile_frame]
  · exact zeroRegion_ge C (M * N) p hp
  · exact hM4
  · exact hN4
  · intro r c hr hc heq
    have hrM : r < M := lt_of_lt_of_le hr (Nat.min_le_right _ _)
    have h := @row_lt_addr N r c M 0 hc hrM
    omega

theorem kSum_eq (A B : Buf R) (i j K N m : Nat) :
    kSum A B i j K N m = ∑ k in Finset.range m, A (i * K + k) * B (k * N + j) := by
  induction m with
  | zero => simp [kSum]
  | succ m ih =>
    simp only [kSum]
    rw [ih, Finset.sum_range_succ]

theorem naive_j_at (A B C : Buf R) (i K N m j : Nat) (hj : j < m) :
    naive_j A B C i K N m (i * N + j) = kSum A B i j K N K := by
  induction m with
  | zero => omega
  | succ m ih =>
    simp only [naive_j]
    rcases Nat.lt_or_ge j m with h1 | h1
    · rw [upd_ne _ _ _ _ (by omega)]
      exact ih h1
    · have h2 : j = m := by omega
      subst h2
      exact upd_self _ _ _

theorem naive_j_frame (A B C : Buf R) (i K N m q : Nat) (h : ∀ j, j < m → q ≠ i * N + j) :
    naive_j A B C i K N m q = C q := by
  induction m with
  | zero => rfl
  | succ m ih =>
    simp only [naive_j]
    rw [upd_ne _ _ _ _ (h m (by omega))]
    exact ih (fun j hj => h j (by omega))

theorem naive_i_at (A B C : Buf R) (K N m i j : Nat) (hi : i < m) (hj : j < N) :
    naive_i A B C K N m (i * N + j) = kSum A B i j K N K := by
  induction m with
  | zero => omega
  | succ m ih =>
    simp only [naive_i]
    rcases Nat.lt_or_ge i m with h1 | h1
    · rw [naive_j_frame]
      · exact ih h1
      · intro j2 hj2 heq
        rcases rowcol_inj hj hj2 heq with ⟨h3, h4⟩
        omega
    · have h2 : i = m := by omega
      subst h2
      exact naive_j_at A B _ i K N N j hj

theorem naive_i_frame (A B C : Buf R) (K N m q : Nat)
    (h : ∀ i j, i < m → j < N → q ≠ i * N + j) :
    naive_i A B C K N m q = C q := by
  induction m with
  | zero => rfl
  | succ m ih =>
    simp only [naive_i]
    rw [naive_j_frame]
    · exact ih (fun i j hi hj => h i j (by omega) hj)
    · intro j hj
      exact h m j (by omega) hj

theorem matmul_naive_at (A B C : Buf R) (M K N i j : Nat) (hi : i < M) (hj : j < N) :
    matmul_naive A B C M K N (i * N + j) =
      ∑ k in Finset.range K, A (i * K + k) * B (k * N + j) := by
  unfold matmul_naive
  rw [naive_i_at A B C K N M i j hi hj, kSum_eq]

theorem matmul_naive_frame (A B C : Buf R) (M K N p : Nat) (hp : M * N ≤ p) :
    matmul_naive A B C M K N p = C p := by
  unfold matmul_naive
  apply naive_i_frame
  intro i j hi hj heq
  have h := @row_lt_addr N i j M 0 hj hi
  omega

theorem neon_eq_naive_aux (A B C : Buf R) (M K N : Nat) (hM4 : M % 4 = 0) (hN4 : N % 4 = 0)
    (p : Nat) : (matmul_neon A B C M K N).C p = matmul_naive A B C M K N p := by
  rcases Nat.lt_or_ge p (M * N) with h1 | h1
  · have hN0 : 0 < N := by
      rcases Nat.eq_zero_or_pos N with h2 | h2
      · subst h2
        omega
      · exact h2
    obtain ⟨i, j, hi, hj, hp⟩ : ∃ i j, i < M ∧ j < N ∧ p = i * N + j := by
      refine ⟨p / N, p % N, ?_, Nat.mod_lt _ hN0, ?_⟩
      · apply Nat.div_lt_of_lt_mul
        have h3 : M * N = N * M := Nat.mul_comm M N
        omega
      · have h2 := Nat.div_add_mod p N
        have h3 : N * (p / N) = p / N * N := Nat.mul_comm _ _
        omega
    subst hp
    rw [neon_C_at A B C M K N hM4 hN4 i j hi hj, matmul_naive_at A B C M K N i j hi hj]
  · rw [neon_C_frame A B C M K N hM4 hN4 p h1, matmul_naive_frame A B C M K N p h1]

theorem zeroRegion_zero (b : Buf R) : zeroRegion b 0 = b :=
  funext fun q => zeroRegion_ge b 0 q (Nat.zero_le q)

theorem cdiv_zero_tile : cdiv 0 TILE = 0 := rfl

theorem jtile_id_K0 (M N i0 : Nat) (s : St R) (m : Nat) : jtile M 0 N i0 s m = s := by
  induction m with
  | zero => rfl
  | succ m ih =>
    simp only [jtile, cdiv_zero_tile]
    exact ih

theorem itile_id_K0 (M N : Nat) (s : St R) (m : Nat) : itile M 0 N s m = s := by
  induction m with
  | zero => rfl
  | succ m ih =>
    simp only [itile]
    rw [jtile_id_K0]
    exact ih

theorem itile_id_N0 (M K : Nat) (s : St R) (m : Nat) : itile M K 0 s m = s := by
  induction m with
  | zero => rfl
  | succ m ih =>
    simp only [itile, cdiv_zero_tile]
    exact ih

theorem neon_K0 (A B C : Buf R) (M N p : Nat) (hp : p < M * N) :
    (matmul_neon A B C M 0 N).C p = 0 := by
  unfold matmul_neon
  rw [itile_id_K0]
  exact zeroRegion_lt C (M * N) p hp

theorem neon_M0 (A B C : Buf R) (K N : Nat) : (matmul_neon A B C 0 K N).C = C := by
  unfold matmul_neon
  rw [show cdiv 0 TILE = 0 from rfl]
  show zeroRegion C (0 * N) = C
  rw [Nat.zero_mul]
  exact zeroRegion_zero C

theorem neon_N0 (A B C : Buf R) (M K : Nat) : (matmul_neon A B C M K 0).C = C := by
  unfold matmul_neon
  rw [itile_id_N0]
  show zeroRegion C (M * 0) = C
  rw [Nat.mul_zero]
  exact zeroRegion_zero C

theorem store4_R2 (b1 b2 : Buf R) (p q : Nat) (v1 v2 : Vec4 R)
    (hv : ∀ l : Fin 4, q = p + (l : Nat) → v1 l = v2 l) (hb : b1 q = b2 q) :
    store4 b1 p v1 q = store4 b2 p v2 q := by
  unfold store4 upd
  split_ifs with h3 h2 h1 h0
  · exact hv 3 (by rw [fin4_val3]; exact h3)
  · exact hv 2 (by rw [fin4_val2]; exact h2)
  · exact hv 1 (by rw [fin4_val1]; exact h1)
  · exact hv 0 (by rw [fin4_val0]; omega)
  · exact hb

theorem micro_R (A P C1 C2 : Buf R) (i j k0 klen K N bp L : Nat)
    (hR : ∀ q, q < L → C1 q = C2 q) :
    ∀ q, q < L → micro A P C1 i j k0 klen K N bp q = micro A P C2 i j k0 klen K N bp q := by
  intro q hq
  simp only [micro]
  apply store4_R2
  · intro l hql
    rw [kloop_val, kloop_val]
    simp only [load4, fin4_val0, fin4_val1, fin4_val2, fin4_val3, Nat.add_zero]
    rw [hR _ (by omega)]
  apply store4_R2
  · intro l hql
    rw [kloop_val, kloop_val]
    simp only [load4, fin4_val0, fin4_val1, fin4_val2, fin4_val3, Nat.add_zero]
    rw [hR _ (by omega)]
  apply store4_R2
  · intro l hql
    rw [kloop_val, kloop_val]
    simp only [load4, fin4_val0, fin4_val1, fin4_val2, fin4_val3, Nat.add_zero]
    rw [hR _ (by omega)]
  apply store4_R2
  · intro l hql
    rw [kloop_val, kloop_val]
    simp only [load4, fin4_val0, fin4_val1, fin4_val2, fin4_val3, Nat.add_zero]
    rw [hR _ (by omega)]
  exact hR q hq

theorem jblocks_R (A P C1 C2 : Buf R) (i j0 k0 klen K N m L : Nat)
    (hR : ∀ q, q < L → C1 q = C2 q) :
    ∀ q, q < L →
      jblocks A P C1 i j0 k0 klen K N m q = jblocks A P C2 i j0 k0 klen K N m q := by
  induction m with
  | zero => exact hR
  | succ m ih =>
    simp only [jblocks]
    exact micro_R A P _ _ i (j0 + 4 * m) k0 klen K N (4 * (m * klen)) L ih

theorem iblocks_R (A P C1 C2 : Buf R) (i0 j0 jcnt k0 klen K N m L : Nat)
    (hR : ∀ q, q < L → C1 q = C2 q) :
    ∀ q, q < L →
      iblocks A P C1 i0 j0 jcnt k0 klen K N m q = iblocks A P C2 i0 j0 jcnt k0 klen K N m q := by
  induction m with
  | zero => exact hR
  | succ m ih =>
    simp only [iblocks]
    exact jblocks_R A P _ _ (i0 + 4 * m) j0 k0 klen K N jcnt L ih

theorem ktile_R (M K N i0 j0 L : Nat) (s1 s2 : St R) (m : Nat)
    (hA : s1.A = s2.A) (hB : s1.B = s2.B) (hP : s1.P = s2.P)
    (hC : ∀ q, q < L → s1.C q = s2.C q) :
    (ktile M K N i0 j0 s1 m).A = (ktile M K N i0 j0 s2 m).A ∧
      (ktile M K N i0 j0 s1 m).B = (ktile M K N i0 j0 s2 m).B ∧
      (ktile M K N i0 j0 s1 m).P = (ktile M K N i0 j0 s2 m).P ∧
      ∀ q, q < L → (ktile M K N i0 j0 s1 m).C q = (ktile M K N i0 j0 s2 m).C q := by
  induction m with
  | zero => exact ⟨hA, hB, hP, hC⟩
  | succ m ih =>
    obtain ⟨ihA, ihB, ihP, ihC⟩ := ih
    simp only [ktile]
    refine ⟨ihA, ihB, ?_, ?_⟩
    · rw [ihB, ihP]
    · intro q hq
      rw [ihA, ihB, ihP]
      exact iblocks_R _ _ _ _ i0 j0 _ _ _ K N _ L ihC q hq

theorem jtile_R (M K N i0 L : Nat) (s1 s2 : St R) (m : Nat)
    (hA : s1.A = s2.A) (hB : s1.B = s2.B) (hP : s1.P = s2.P)
    (hC : ∀ q, q < L → s1.C q = s2.C q) :
    (jtile M K N i0 s1 m).A = (jtile M K N i0 s2 m).A ∧
      (jtile M K N i0 s1 m).B = (jtile M K N i0 s2 m).B ∧
      (jtile M K N i0 s1 m).P = (jtile M K N i0 s2 m).P ∧
      ∀ q, q < L → (jtile M K N i0 s1 m).C q = (jtile M K N i0 s2 m).C q := by
  induction m with
  | zero => exact ⟨hA, hB, hP, hC⟩
  | succ m ih =>
    obtain ⟨ihA, ihB, ihP, ihC⟩ := ih
    simp only [jtile]
    exact ktile_R M K N i0 (TILE * m) L _ _ (cdiv K TILE) ihA ihB ihP ihC

theorem itile_R (M K N L : Nat) (s1 s2 : St R) (m : Nat)
    (hA : s1.A = s2.A) (hB : s1.B = s2.B) (hP : s1.P = s2.P)
    (hC : ∀ q, q < L → s1.C q = s2.C q) :
    (itile M K N s1 m).A = (itile M K N s2 m).A ∧
      (itile M K N s1 m).B = (itile M K N s2 m).B ∧
      (itile M K N s1 m).P = (itile M K N s2 m).P ∧
      ∀ q, q < L → (itile M K N s1 m).C q = (itile M K N s2 m).C q := by
  induction m with
  | zero => exact ⟨hA, hB, hP, hC⟩
  | succ m ih =>
    obtain ⟨ihA, ihB, ihP, ihC⟩ := ih
    simp only [itile]
    exact jtile_R M K N (TILE * m) L _ _ (cdiv N TILE) ihA ihB ihP ihC

theorem neon_C_indep (A B C1 C2 : Buf R) (M K N p : Nat) (hp : p < M * N) :
    (matmul_neon A B C1 M K N).C p = (matmul_neon A B C2 M K N).C p := by
  unfold matmul_neon
  have hC0 : ∀ q, q < M * N → zeroRegion C1 (M * N) q = zeroRegion C2 (M * N) q := by
    intro q hq
    rw [zeroRegion_lt _ _ _ hq, zeroRegion_lt _ _ _ hq]
  exact (itile_R M K N (M * N) ⟨A, B, zeroRegion C1 (M * N), fun _ => 0, 0⟩
    ⟨A, B, zeroRegion C2 (M * N), fun _ => 0, 0⟩ (cdiv M TILE) rfl rfl rfl hC0).2.2.2 p hp

theorem neon_packs (A B C : Buf R) (M K N : Nat) :
    (matmul_neon A B C M K N).packs = cdiv M TILE * (cdiv N TILE * cdiv K TILE) := by
  unfold matmul_neon
  rw [itile_packs]
  simp

theorem neon_AB (A B C : Buf R) (M K N : Nat) :
    (matmul_neon A B C M K N).A = A ∧ (matmul_neon A B C M K N).B = B := by
  unfold matmul_neon
  exact ⟨(itile_AB M K N _ (cdiv M TILE)).1, (itile_AB M K N _ (cdiv M TILE)).2⟩

theorem neon_P0 (A B C : Buf R) (M K N q : Nat) (hq : TILE * TILE ≤ q) :
    (matmul_neon A B C M K N).P q = 0 := by
  unfold matmul_neon
  exact itile_P0 M K N _ (cdiv M TILE) (fun q2 hq2 => rfl) q hq

theorem addAt_at (b : Buf R) (p : Nat) (v : R) : addAt b p v p = b p + v := by
  simp [addAt, upd]

theorem addAt_ne (b : Buf R) (p q : Nat) (v : R) (h : q ≠ p) : addAt b p v q = b q := by
  simp [addAt, upd, h]

theorem addRange_frame (A B C : Buf R) (i k lo N m q : Nat)
    (h : ∀ d, d < m → q ≠ i * N + (lo + d)) : addRange A B C i k lo N m q = C q := by
  induction m with
  | zero => rfl
  | succ m ih =>
    simp only [addRange]
    rw [addAt_ne _ _ _ _ (h m (by omega))]
    exact ih (fun d hd => h d (by omega))

theorem addRange_at (A B C : Buf R) (i k lo N m d : Nat) (hd : d < m) :
    addRange A B C i k lo N m (i * N + (lo + d)) =
      C (i * N + (lo + d)) + A (i * N + k) * B (k * N + (lo + d)) := by
  induction m with
  | zero => omega
  | succ m ih =>
    simp only [addRange]
    rcases Nat.lt_or_ge d m with h1 | h1
    · rw [addAt_ne _ _ _ _ (by omega)]
      exact ih h1
    · have h2 : d = m := by omega
      subst h2
      rw [addAt_at, addRange_frame _ _ _ _ _ _ _ _ _ (fun d2 hd2 => by omega)]

theorem kRun_frame (A B C : Buf R) (i k0 lo len N m q : Nat)
    (h : ∀ d, d < len → q ≠ i * N + (lo + d)) : kRun A B C i k0 lo len N m q = C q := by
  induction m with
  | zero => rfl
  | succ m ih =>
    simp only [kRun]
    rw [addRange_frame _ _ _ _ _ _ _ _ _ h]
    exact ih

theorem kRun_at (A B C : Buf R) (i k0 lo len N m d : Nat) (hd : d < len) :
    kRun A B C i k0 lo len N m (i * N + (lo + d)) =
      C (i * N + (lo + d)) +
        ∑ t in Finset.range m, A (i * N + (k0 + t)) * B ((k0 + t) * N + (lo + d)) := by
  induction m with
  | zero => simp [kRun]
  | succ m ih =>
    simp only [kRun]
    rw [addRange_at _ _ _ _ _ _ _ _ _ hd, ih, Finset.sum_range_succ]
    ring

theorem iRun_frame (A B C : Buf R) (i0 k0 klen lo len N m q : Nat)
    (h : ∀ di d, di < m → d < len → q ≠ (i0 + di) * N + (lo + d)) :
    iRun A B C i0 k0 klen lo len N m q = C q := by
  induction m with
  | zero => rfl
  | succ m ih =>
    simp only [iRun]
    rw [kRun_frame _ _ _ _ _ _ _ _ _ _ (fun d hd => h m d (by omega) hd)]
    exact ih (fun di d hdi hd => h di d (by omega) hd)

theorem iRun_at (A B C : Buf R) (i0 k0 klen lo len N m di d : Nat)
    (hdi : di < m) (hd : d < len) (hlen : lo + len ≤ N) :
    iRun A B C i0 k0 klen lo len N m ((i0 + di) * N + (lo + d)) =
      C ((i0 + di) * N + (lo + d)) +
        ∑ t in Finset.range klen, A ((i0 + di) * N + (k0 + t)) * B ((k0 + t) * N + (lo + d)) := by
  induction m with
  | zero => omega
  | succ m ih =>
    simp only [iRun]
    rcases Nat.lt_or_ge di m with h1 | h1
    · rw [kRun_frame]
      · exact ih h1
      · intro d2 hd2 heq
        rcases rowcol_inj (show lo + d < N by omega) (show lo + d2 < N by omega) heq with ⟨h3, h4⟩
        omega
    · have h2 : di = m := by omega
      subst h2
      rw [kRun_at _ _ _ _ _ _ _ _ _ _ hd]
      rw [iRun_frame]
      intro di2 d2 hdi2 hd2 heq
      rcases rowcol_inj (show lo + d < N by omega) (show lo + d2 < N by omega) heq with ⟨h3, h4⟩
      omega

theorem kTileRun_frame (A B C : Buf R) (i0 icnt lo len N m q : Nat)
    (h : ∀ di d, di < icnt → d < len → q ≠ (i0 + di) * N + (lo + d)) :
    kTileRun A B C i0 icnt lo len N m q = C q := by
  induction m with
  | zero => rfl
  | succ m ih =>
    simp only [kTileRun]
    rw [iRun_frame _ _ _ _ _ _ _ _ _ _ _ h]
    exact ih

theorem kTileRun_at (A B C : Buf R) (i0 icnt lo len N m di d : Nat)
    (hm : m ≤ cdiv N TILE) (hdi : di < icnt) (hd : d < len) (hlen : lo + len ≤ N) :
    kTileRun A B C i0 icnt lo len N m ((i0 + di) * N + (lo + d)) =
      C ((i0 + di) * N + (lo + d)) +
        ∑ k in Finset.range (min (TILE * m) N),
          A ((i0 + di) * N + k) * B (k * N + (lo + d)) := by
  induction m with
  | zero => simp [kTileRun]
  | succ m ih =>
    have hN : TILE * m < N := tile_lt_of_lt_cdiv (by omega)
    simp only [kTileRun]
    rw [iRun_at _ _ _ _ _ _ _ _ _ _ _ _ hdi hd hlen, ih (by omega)]
    have hmin1 : min (TILE * m) N = TILE * m := Nat.min_eq_left (le_of_lt hN)
    have hsplit : min (TILE * (m + 1)) N = TILE * m + (min (TILE * m + TILE) N - TILE * m) := by
      have h1 : TILE * (m + 1) = TILE * m + TILE := by ring
      rw [h1]
      have h2 : TILE * m ≤ min (TILE * m + TILE) N :=
        le_min (Nat.le_add_right _ _) (le_of_lt hN)
      omega
    rw [hmin1, hsplit, sum_range_add_helper]
    ring

theorem jTileRun_frame (A B C : Buf R) (i0 icnt N m q : Nat)
    (h : ∀ di c, di < icnt → c < min (TILE * m) N → q ≠ (i0 + di) * N + c) :
    jTileRun A B C i0 icnt N m q = C q := by
  induction m with
  | zero => rfl
  | succ m ih =>
    have hplus : TILE * (m + 1) = TILE * m + TILE := by ring
    simp only [jTileRun]
    rw [kTileRun_frame]
    · exact ih (fun di c hdi hc => h di c hdi (by omega))
    · intro di d hdi hd heq
      exact h di (TILE * m + d) hdi (by omega) heq

theorem jTileRun_at (A B C : Buf R) (i0 icnt N m di c : Nat)
    (hm : m ≤ cdiv N TILE) (hdi : di < icnt) (hc : c < min (TILE * m) N) :
    jTileRun A B C i0 icnt N m ((i0 + di) * N + c) =
      C ((i0 + di) * N + c) + ∑ k in Finset.range N, A ((i0 + di) * N + k) * B (k * N + c) := by
  induction m with
  | zero =>
    exfalso
    have h0 : TILE * 0 = 0 := by ring
    rw [h0] at hc
    omega
  | succ m ih =>
    have hN : TILE * m < N := tile_lt_of_lt_cdiv (by omega)
    have hplus : TILE * (m + 1) = TILE * m + TILE := by ring
    rw [hplus] at hc
    have hcN : c < N := (Nat.lt_min.mp hc).2
    simp only [jTileRun]
    rcases Nat.lt_or_ge c (TILE * m) with h1 | h1
    · rw [kTileRun_frame]
      · exact ih (by omega) (Nat.lt_min.mpr ⟨h1, hcN⟩)
      · intro di2 d2 hdi2 hd2 heq
        rcases rowcol_inj hcN (show TILE * m + d2 < N by omega) heq with ⟨h3, h4⟩
        omega
    · rw [show c = TILE * m + (c - TILE * m) from by omega]
      rw [kTileRun_at A B _ i0 icnt (TILE * m) (min (TILE * m + TILE) N - TILE * m) N
        (cdiv N TILE) di (c - TILE * m) le_rfl hdi (by omega) (by omega)]
      rw [jTileRun_frame]
      · rw [Nat.min_eq_right (le_tile_cdiv N)]
      · intro di2 c2 hdi2 hc2 heq
        have hc2N : c2 < N := (Nat.lt_min.mp hc2).2
        rcases rowcol_inj (show TILE * m + (c - TILE * m) < N by omega) hc2N heq with ⟨h3, h4⟩
        omega

theorem iTileRun_frame (A B C : Buf R) (N m q : Nat)
    (h : ∀ r c, r < min (TILE * m) N → c < N → q ≠ r * N + c) :
    iTileRun A B C N m q = C q := by
  induction m with
  | zero => rfl
  | succ m ih =>
    have hplus : TILE * (m + 1) = TILE * m + TILE := by ring
    simp only [iTileRun]
    rw [jTileRun_frame]
    · exact ih (fun r c hr hc => h r c (by omega) hc)
    · intro di c hdi hc heq
      have hcN : c < N := (Nat.lt_min.mp hc).2
      exact h (TILE * m + di) c (by omega) hcN heq

theorem iTileRun_at (A B C : Buf R) (N m r c : Nat)
    (hm : m ≤ cdiv N TILE) (hr : r < min (TILE * m) N) (hc : c < N) :
    iTileRun A B C N m (r * N + c) =
      C (r * N + c) + ∑ k in Finset.range N, A (r * N + k) * B (k * N + c) := by
  induction m with
  | zero =>
    exfalso
    have h0 : TILE * 0 = 0 := by ring
    rw [h0] at hr
    omega
  | succ m ih =>
    have hN : TILE * m < N := tile_lt_of_lt_cdiv (by omega)
    have hplus : TILE * (m + 1) = TILE * m + TILE := by ring
    rw [hplus] at hr
    have hrN : r < N := (Nat.lt_min.mp hr).2
    simp only [iTileRun]
    rcases Nat.lt_or_ge r (TILE * m) with h1 | h1
    · rw [jTileRun_frame]
      · exact ih (by omega) (Nat.lt_min.mpr ⟨h1, hrN⟩)
      · intro di2 c2 hdi2 hc2 heq
        have hc2N : c2 < N := (Nat.lt_min.mp hc2).2
        rcases rowcol_inj hc hc2N heq with ⟨h3, h4⟩
        omega
    · rw [show r = TILE * m + (r - TILE * m) from by omega]
      rw [jTileRun_at A B _ (TILE * m) (min (TILE * m + TILE) N - TILE * m) N (cdiv N TILE)
        (r - TILE * m) c le_rfl (by omega)
        (by rw [Nat.min_eq_right (le_tile_cdiv N)]; exact hc)]
      rw [iTileRun_frame]
      intro r2 c2 hr2 hc2 heq
      rcases rowcol_inj hc hc2 heq with ⟨h3, h4⟩
      omega

theorem unroll8_frame (A B C : Buf R) (i k j0 N t q : Nat)
    (h : ∀ d, d < 8 * t → q ≠ i * N + (j0 + d)) : unroll8 A B C i k j0 N t q = C q := by
  induction t with
  | zero => rfl
  | succ t ih =>
    simp only [unroll8]
    rw [addAt_ne _ _ _ _ (by have hx := h (8 * t + 7) (by omega); omega),
        addAt_ne _ _ _ _ (by have hx := h (8 * t + 6) (by omega); omega),
        addAt_ne _ _ _ _ (by have hx := h (8 * t + 5) (by omega); omega),
        addAt_ne _ _ _ _ (by have hx := h (8 * t + 4) (by omega); omega),
        addAt_ne _ _ _ _ (by have hx := h (8 * t + 3) (by omega); omega),
        addAt_ne _ _ _ _ (by have hx := h (8 * t + 2) (by omega); omega),
        addAt_ne _ _ _ _ (by have hx := h (8 * t + 1) (by omega); omega),
        addAt_ne _ _ _ _ (by have hx := h (8 * t) (by omega); omega)]
    exact ih (fun d hd => h d (by omega))

theorem unroll8_at (A B C : Buf R) (i k j0 N t d : Nat) (hd : d < 8 * t) :
    unroll8 A B C i k j0 N t (i * N + (j0 + d)) =
      C (i * N + (j0 + d)) + A (i * N + k) * B (k * N + (j0 + d)) := by
  induction t with
  | zero => omega
  | succ t ih =>
    simp only [unroll8]
    rcases Nat.lt_or_ge d (8 * t) with h1 | h1
    · rw [addAt_ne _ _ _ _ (by omega), addAt_ne _ _ _ _ (by omega),
          addAt_ne _ _ _ _ (by omega), addAt_ne _ _ _ _ (by omega),
          addAt_ne _ _ _ _ (by omega), addAt_ne _ _ _ _ (by omega),
          addAt_ne _ _ _ _ (by omega), addAt_ne _ _ _ _ (by omega)]
      exact ih h1
    · obtain ⟨c, hc8, hdc⟩ : ∃ c, c < 8 ∧ d = 8 * t + c := ⟨d - 8 * t, by omega, by omega⟩
      subst hdc
      interval_cases c
      · rw [show i * N + (j0 + (8 * t + 0)) = i * N + (j0 + 8 * t) from by omega,
            show k * N + (j0 + (8 * t + 0)) = k * N + (j0 + 8 * t) from by omega]
        rw [addAt_ne _ _ _ _ (by omega),
            addAt_ne _ _ _ _ (by omega),
            addAt_ne _ _ _ _ (by omega),
            addAt_ne _ _ _ _ (by omega),
            addAt_ne _ _ _ _ (by omega),
            addAt_ne _ _ _ _ (by omega),
            addAt_ne _ _ _ _ (by omega),
            addAt_at]
        congr 1
        apply unroll8_frame
        intro d2 hd2
        omega
      · rw [show i * N + (j0 + (8 * t + 1)) = i * N + (j0 + 8 * t + 1) from by omega,
            show k * N + (j0 + (8 * t + 1)) = k * N + (j0 + 8 * t + 1) from by omega]
        rw [addAt_ne _ _ _ _ (by omega),
            addAt_ne _ _ _ _ (by omega),
            addAt_ne _ _ _ _ (by omega),
            addAt_ne _ _ _ _ (by omega),
            addAt_ne _ _ _ _ (by omega),
            addAt_ne _ _ _ _ (by omega),
            addAt_at,
            addAt_ne _ _ _ _ (by omega)]
        congr 1
        apply unroll8_frame
        intro d2 hd2
        omega
      · rw [show i * N + (j0 + (8 * t + 2)) = i * N + (j0 + 8 * t + 2) from by omega,
            show k * N + (j0 + (8 * t + 2)) = k * N + (j0 + 8 * t + 2) from by omega]
        rw [addAt_ne _ _ _ _ (by omega),
            addAt_ne _ _ _ _ (by omega),
            addAt_ne _ _ _ _ (by omega),
            addAt_ne _ _ _ _ (by omega),
            addAt_ne _ _ _ _ (by omega),
            addAt_at,
            addAt_ne _ _ _ _ (by omega),
            addAt_ne _ _ _ _ (by omega)]
        congr 1
        apply unroll8_frame
        intro d2 hd2
        omega
      · rw [show i * N + (j0 + (8 * t + 3)) = i * N + (j0 + 8 * t + 3) from by omega,
            show k * N + (j0 + (8 * t + 3)) = k * N + (j0 + 8 * t + 3) from by omega]
        rw [addAt_ne _ _ _ _ (by omega),
            addAt_ne _ _ _ _ (by omega),
            addAt_ne _ _ _ _ (by omega),
            addAt_ne _ _ _ _ (by omega),
            addAt_at,
            addAt_ne _ _ _ _ (by omega),
            addAt_ne _ _ _ _ (by omega),
            addAt_ne _ _ _ _ (by omega)]
        congr 1
        apply unroll8_frame
        intro d2 hd2
        omega
      · rw [show i * N + (j0 + (8 * t + 4)) = i * N + (j0 + 8 * t + 4) from by omega,
            show k * N + (j0 + (8 * t + 4)) = k * N + (j0 + 8 * t + 4) from by omega]
        rw [addAt_ne _ _ _ _ (by omega),
            addAt_ne _ _ _ _ (by omega),
            addAt_ne _ _ _ _ (by omega),
            addAt_at,
            addAt_ne _ _ _ _ (by omega),
            addAt_ne _ _ _ _ (by omega),
            addAt_ne _ _ _ _ (by omega),
            addAt_ne _ _ _ _ (by omega)]
        congr 1
        apply unroll8_frame
        intro d2 hd2
        omega
      · rw [show i * N + (j0 + (8 * t + 5)) = i * N + (j0 + 8 * t + 5) from by omega,
            show k * N + (j0 + (8 * t + 5)) = k * N + (j0 + 8 * t + 5) from by omega]
        rw [addAt_ne _ _ _ _ (by omega),
            addAt_ne _ _ _ _ (by omega),
            addAt_at,
            addAt_ne _ _ _ _ (by omega),
            addAt_ne _ _ _ _ (by omega),
            addAt_ne _ _ _ _ (by omega),
            addAt_ne _ _ _ _ (by omega),
            addAt_ne _ _ _ _ (by omega)]
        congr 1
        apply unroll8_frame
        intro d2 hd2
        omega
      · rw [show i * N + (j0 + (8 * t + 6)) = i * N + (j0 + 8 * t + 6) from by omega,
            show k * N + (j0 + (8 * t + 6)) = k * N + (j0 + 8 * t + 6) from by omega]
        rw [addAt_ne _ _ _ _ (by omega),
            addAt_at,
            addAt_ne _ _ _ _ (by omega),
            addAt_ne _ _ _ _ (by omega),
            addAt_ne _ _ _ _ (by omega),
            addAt_ne _ _ _ _ (by omega),
            addAt_ne _ _ _ _ (by omega),
            addAt_ne _ _ _ _ (by omega)]
        congr 1
        apply unroll8_frame
        intro d2 hd2
        omega
      · rw [show i * N + (j0 + (8 * t + 7)) = i * N + (j0 + 8 * t + 7) from by omega,
            show k * N + (j0 + (8 * t + 7)) = k * N + (j0 + 8 * t + 7) from by omega]
        rw [addAt_at,
            addAt_ne _ _ _ _ (by omega),
            addAt_ne _ _ _ _ (by omega),
            addAt_ne _ _ _ _ (by omega),
            addAt_ne _ _ _ _ (by omega),
            addAt_ne _ _ _ _ (by omega),
            addAt_ne _ _ _ _ (by omega),
            addAt_ne _ _ _ _ (by omega)]
        congr 1
        apply unroll8_frame
        intro d2 hd2
        omega

theorem t8row_at (A B C : Buf R) (i k j0 width N d : Nat) (hd : d < width) :
    t8row A B C i k j0 width N (i * N + (j0 + d)) =
      C (i * N + (j0 + d)) + A (i * N + k) * B (k * N + (j0 + d)) := by
  unfold t8row
  rcases Nat.lt_or_ge d (8 * (width / 8)) with h1 | h1
  · rw [addRange_frame _ _ _ _ _ _ _ _ _ (fun d2 hd2 => by omega)]
    exact unroll8_at A B C i k j0 N _ d h1
  · rw [show i * N + (j0 + d) =
          i * N + ((j0 + 8 * (width / 8)) + (d - 8 * (width / 8))) from by omega,
        show k * N + (j0 + d) =
          k * N + ((j0 + 8 * (width / 8)) + (d - 8 * (width / 8))) from by omega]
    rw [addRange_at _ _ _ _ _ _ _ _ _ (show d - 8 * (width / 8) < width % 8 from by omega)]
    congr 1
    apply unroll8_frame
    intro d2 hd2
    omega

theorem t8row_frame (A B C : Buf R) (i k j0 width N q : Nat)
    (h : ∀ d, d < width → q ≠ i * N + (j0 + d)) : t8row A B C i k j0 width N q = C q := by
  unfold t8row
  rw [addRange_frame _ _ _ _ _ _ _ _ _
    (fun d2 hd2 => by have hx := h (8 * (width / 8) + d2) (by omega); omega)]
  exact unroll8_frame A B C i k j0 N _ q (fun d hd => h d (by omega))

theorem t8row_eq_addRange (A B C : Buf R) (i k j0 width N : Nat) :
    t8row A B C i k j0 width N = addRange A B C i k j0 N width := by
  funext q
  by_cases h : ∃ d, d < width ∧ q = i * N + (j0 + d)
  · obtain ⟨d, hd, hq⟩ := h
    subst hq
    rw [t8row_at _ _ _ _ _ _ _ _ _ hd, addRange_at _ _ _ _ _ _ _ _ _ hd]
  · push_neg at h
    rw [t8row_frame _ _ _ _ _ _ _ _ _ (fun d hd => h d hd),
        addRange_frame _ _ _ _ _ _ _ _ _ (fun d hd => h d hd)]

theorem t8k_eq (A B C : Buf R) (i k0 j0 width N m : Nat) :
    t8k A B C i k0 j0 width N m = kRun A B C i k0 j0 width N m := by
  induction m with
  | zero => rfl
  | succ m ih =>
    simp only [t8k, kRun]
    rw [ih, t8row_eq_addRange]

theorem t8i_eq (A B C : Buf R) (i0 k0 klen j0 width N m : Nat) :
    t8i A B C i0 k0 klen j0 width N m = iRun A B C i0 k0 klen j0 width N m := by
  induction m with
  | zero => rfl
  | succ m ih =>
    simp only [t8i, iRun]
    rw [ih, t8k_eq]

theorem t8ktile_eq (A B C : Buf R) (i0 icnt j0 width N m : Nat) :
    t8ktile A B C i0 icnt j0 width N m = kTileRun A B C i0 icnt j0 width N m := by
  induction m with
  | zero => rfl
  | succ m ih =>
    simp only [t8ktile, kTileRun]
    rw [ih, t8i_eq]

theorem t8jtile_eq (A B C : Buf R) (i0 icnt N m : Nat) :
    t8jtile A B C i0 icnt N m = jTileRun A B C i0 icnt N m := by
  induction m with
  | zero => rfl
  | succ m ih =>
    simp only [t8jtile, jTileRun]
    rw [ih, t8ktile_eq]

theorem t8itile_eq (A B C : Buf R) (N m : Nat) :
    t8itile A B C N m = iTileRun A B C N m := by
  induction m with
  | zero => rfl
  | succ m ih =>
    simp only [t8itile, iTileRun]
    rw [ih, t8jtile_eq]

theorem tiled_eq_tiled2d (A B C : Buf R) (N : Nat) :
    matmul_tiled A B C N = matmul_tiled_2d A B C N := by
  unfold matmul_tiled matmul_tiled_2d
  rw [t8itile_eq]

theorem addr_decomp (M N p : Nat) (hp : p < M * N) :
    ∃ i j, i < M ∧ j < N ∧ p = i * N + j := by
  have hN0 : 0 < N := by
    rcases Nat.eq_zero_or_pos N with h2 | h2
    · subst h2
      omega
    · exact h2
  refine ⟨p / N, p % N, ?_, Nat.mod_lt _ hN0, ?_⟩
  · apply Nat.div_lt_of_lt_mul
    have h3 : M * N = N * M := Nat.mul_comm M N
    omega
  · have h2 := Nat.div_add_mod p N
    have h3 : N * (p / N) = p / N * N := Nat.mul_comm _ _
    omega

theorem tiled_2d_eq_naive_aux (A B C : Buf R) (N p : Nat) :
    matmul_tiled_2d A B C N p = matmul_naive_sq A B C N p := by
  rcases Nat.lt_or_ge p (N * N) with h1 | h1
  · obtain ⟨i, j, hi, hj, hp⟩ := addr_decomp N N p h1
    subst hp
    unfold matmul_tiled_2d matmul_naive_sq
    rw [iTileRun_at A B _ N (cdiv N TILE) i j le_rfl
        (by rw [Nat.min_eq_right (le_tile_cdiv N)]; exact hi) hj,
      matmul_naive_at A B C N N N i j hi hj]
    rw [zeroRegion_lt _ _ _ (by have h := @row_lt_addr N i j N 0 hj hi; omega), zero_add]
  · unfold matmul_tiled_2d matmul_naive_sq
    rw [matmul_naive_frame A B C N N N p h1]
    rw [iTileRun_frame]
    · exact zeroRegion_ge _ _ _ h1
    · intro r c hr hc heq
      have hrN : r < N := lt_of_lt_of_le hr (Nat.min_le_right _ _)
      have h := @row_lt_addr N r c N 0 hc hrN
      omega

theorem tiled_1d_eq_naive_aux (A B C : Buf R) (N p : Nat) :
    matmul_tiled_1d A B C N p = matmul_naive_sq A B C N p := by
  rcases Nat.lt_or_ge p (N * N) with h1 | h1
  · obtain ⟨i, j, hi, hj, hp⟩ := addr_decomp N N p h1
    subst hp
    unfold matmul_tiled_1d matmul_naive_sq
    rw [show i * N + j = (0 + i) * N + (0 + j) from by ring]
    rw [kTileRun_at A B _ 0 N 0 N N (cdiv N TILE) i j le_rfl hi hj (by omega)]
    rw [Nat.min_eq_right (le_tile_cdiv N)]
    rw [matmul_naive_at A B C N N N (0 + i) (0 + j) (by omega) (by omega)]
    rw [zeroRegion_lt _ _ _
      (by have h := @row_lt_addr N (0 + i) (0 + j) N 0 (by omega) (by omega); omega), zero_add]
  · unfold matmul_tiled_1d matmul_naive_sq
    rw [matmul_naive_frame A B C N N N p h1]
    rw [kTileRun_frame]
    · exact zeroRegion_ge _ _ _ h1
    · intro di d hdi hd heq
      have h := @row_lt_addr N (0 + di) (0 + d) N 0 (by omega) (by omega)
      omega

theorem tiled_eq_naive_aux (A B C : Buf R) (N p : Nat) :
    matmul_tiled A B C N p = matmul_naive_sq A B C N p := by
  rw [tiled_eq_tiled2d]
  exact tiled_2d_eq_naive_aux A B C N p

/-- Claim C1 counterexample: with M=4, K=2, N=5 (N not a multiple of 4) and
integer-valued inputs that are zero outside the logical buffers, the value
`matmul_neon` leaves at C[1][0] (flat index 5) differs from the naive
reference: the ragged last 4-column micro-block overlaps the next row and
overwrites it with a polluted lane. -/
theorem C1_counterexample :
    (matmul_neon (onesLT 8) (onesLT 10) zeroBuf 4 2 5 : St ℤ).C 5 ≠
      matmul_naive (onesLT 8) (onesLT 10) zeroBuf 4 2 5 5 := by
  decide

/-- Claim C1 (amended): for every M and N that are multiples of 4 and every
K ≥ 0, `matmul_neon` produces, under exact arithmetic, a C buffer
element-wise (indeed pointwise on the whole address space) equal to the
naive triple-loop reference; for M or N not a multiple of 4 (such as the
sizes 1, 3, 5, 63, 65, 127, 129) the kernel reads and writes out of
bounds and in-bounds entries can differ from the reference. -/
theorem C1_amended (A B C : Buf R) (M K N : Nat) (hM4 : M % 4 = 0) (hN4 : N % 4 = 0)
    (p : Nat) : (matmul_neon A B C M K N).C p = matmul_naive A B C M K N p :=
  neon_eq_naive_aux A B C M K N hM4 hN4 p

theorem C1_amended_witness :
    4 % 4 = 0 ∧ 8 % 4 = 0 ∧
      (matmul_neon (onesLT 8) (onesLT 16) zeroBuf 4 2 8 : St ℤ).C 3 =
        matmul_naive (onesLT 8) (onesLT 16) zeroBuf 4 2 8 3 :=
  ⟨by decide, by decide,
    @C1_amended ℤ _ (onesLT 8) (onesLT 16) zeroBuf 4 2 8 (by decide) (by decide) 3⟩

/-- Claim C2 counterexample: with M=128, N=64, K=64 there is exactly one
(j-tile, k-tile) pair, yet `pack_B_tile` is invoked twice (once for each
of the two i-tiles), because in the code the pack sits inside the `i0`
loop; so the packer is not invoked once per (j-tile, k-tile) pair. -/
theorem C2_counterexample :
    (matmul_neon zeroBuf zeroBuf zeroBuf 128 64 64 : St ℤ).packs ≠
      cdiv 64 TILE * cdiv 64 TILE := by
  rw [neon_packs]
  decide

/-- Claim C2 (amended): in `matmul_neon` the B-panel packer is invoked
exactly once per (i-tile, j-tile, k-tile) triple per call, i.e.
⌈M/TILE⌉·⌈N/TILE⌉·⌈K/TILE⌉ times, not once per (j-tile, k-tile) pair:
the pack call sits inside the `k0` loop, which is nested inside the `i0`
and `j0` loops, so the same (j-tile, k-tile) panel is re-packed for every
i-tile. -/
theorem C2_amended (A B C : Buf R) (M K N : Nat) :
    (matmul_neon A B C M K N).packs = cdiv M TILE * (cdiv N TILE * cdiv K TILE) :=
  neon_packs A B C M K N

/-- Claim C3: for every M and N that are positive multiples of 4 and every
K ≥ 0, `matmul_neon` computes, under exact arithmetic, exactly the same C
matrix as the naive M×K×N triple loop — the blocked/packed/4×4
micro-kernel embedding and the naive embedding agree pointwise on the
whole C address space. -/
theorem C3_blocked_refines_naive (A B C : Buf R) (M K N : Nat)
    (hM : 0 < M) (hN : 0 < N) (hM4 : M % 4 = 0) (hN4 : N % 4 = 0) (p : Nat) :
    (matmul_neon A B C M K N).C p = matmul_naive A B C M K N p :=
  neon_eq_naive_aux A B C M K N hM4 hN4 p

theorem C3_witness :
    0 < 4 ∧ 0 < 8 ∧ 4 % 4 = 0 ∧ 8 % 4 = 0 ∧
      (matmul_neon (onesLT 20) (onesLT 40) zeroBuf 4 5 8 : St ℤ).C 0 =
        matmul_naive (onesLT 20) (onesLT 40) zeroBuf 4 5 8 0 :=
  ⟨by decide, by decide, by decide, by decide,
    @C3_blocked_refines_naive ℤ _ (onesLT 20) (onesLT 40) zeroBuf 4 5 8 (by decide)
      (by decide) (by decide) (by decide) 0⟩

/-- Claim C4: `pack_B_tile` establishes the documented layout rule: for
`k0 ≤ k < k_end` and `j0 ≤ j < j_end` with the j-range width a multiple
of 4, `packed[((j-j0)/4)*(k_end-k0)*4 + (k-k0)*4 + (j-j0)%4] = B[k*N+j]`,
so unpacking by this rule reconstructs the source sub-rectangle exactly. -/
theorem C4_pack_layout (B P : Buf R) (k0 k_end j0 j_end N k j : Nat)
    (h4 : (j_end - j0) % 4 = 0) (hk0 : k0 ≤ k) (hk : k < k_end)
    (hj0 : j0 ≤ j) (hj : j < j_end) :
    pack_B_tile B P k0 k_end j0 j_end N
        ((j - j0) / 4 * (k_end - k0) * 4 + (k - k0) * 4 + (j - j0) % 4) = B (k * N + j) := by
  unfold pack_B_tile
  have h1 := packJ_at B P k0 (k_end - k0) j0 N ((j_end - j0 + 3) / 4)
    ((j - j0) / 4) (k - k0) ((j - j0) % 4) (by omega) (by omega) (by omega)
  rw [show (j - j0) / 4 * (k_end - k0) * 4 + (k - k0) * 4 + (j - j0) % 4
      = 4 * ((j - j0) / 4 * (k_end - k0)) + 4 * (k - k0) + (j - j0) % 4 from by ring]
  rw [h1, show k0 + (k - k0) = k from by omega]
  congr 1
  omega

theorem C4_witness :
    (8 - 4) % 4 = 0 ∧ 1 ≤ 2 ∧ 2 < 3 ∧ 4 ≤ 5 ∧ 5 < 8 ∧
      pack_B_tile (onesLT 27 : Buf ℤ) zeroBuf 1 3 4 8 9
          ((5 - 4) / 4 * (3 - 1) * 4 + (2 - 1) * 4 + (5 - 4) % 4) = onesLT 27 (2 * 9 + 5) :=
  ⟨by decide, by decide, by decide, by decide, by decide,
    @C4_pack_layout ℤ _ (onesLT 27) zeroBuf 1 3 4 8 9 2 5 (by decide) (by decide) (by decide)
      (by decide) (by decide)⟩

/-- Claim C5: degenerate dimensions are a defined no-op for `matmul_neon`:
if K = 0 then every entry of the C buffer equals 0 on return (true for all
M, N); if M = 0 or N = 0 the C address space is untouched. -/
theorem C5_degenerate (A B C : Buf R) (M K N : Nat) :
    (K = 0 → ∀ p, p < M * N → (matmul_neon A B C M K N).C p = 0) ∧
      ((M = 0 ∨ N = 0) → (matmul_neon A B C M K N).C = C) := by
  constructor
  · intro hK p hp
    subst hK
    exact neon_K0 A B C M N p hp
  · intro h
    rcases h with h | h
    · subst h
      exact neon_M0 A B C K N
    · subst h
      exact neon_N0 A B C M K

theorem C5_witness :
    (matmul_neon (onesLT 0) (onesLT 0) (onesLT 6) 2 0 3 : St ℤ).C 4 = 0 ∧
      (matmul_neon (onesLT 9) (onesLT 9) (onesLT 9) 0 3 3 : St ℤ).C = onesLT 9 :=
  ⟨(@C5_degenerate ℤ _ (onesLT 0) (onesLT 0) (onesLT 6) 2 0 3).1 rfl 4 (by decide),
    (@C5_degenerate ℤ _ (onesLT 9) (onesLT 9) (onesLT 9) 0 3 3).2 (Or.inl rfl)⟩

/-- Claim C6: the result of `matmul_neon` in the C buffer (the M*N cells)
is independent of the initial content of C — for identical A, B, M, K, N
and arbitrary different initial C buffers the resulting buffers agree
element-wise, because C is zeroed once at entry and every subsequent write
accumulates into a location first loaded from that same location. -/
theorem C6_C_init_independent (A B C D : Buf R) (M K N p : Nat) (hp : p < M * N) :
    (matmul_neon A B C M K N).C p = (matmul_neon A B D M K N).C p :=
  neon_C_indep A B C D M K N p hp

theorem C6_witness :
    (3 : Nat) < 5 * 5 ∧
      (matmul_neon (onesLT 15) (onesLT 15) (onesLT 25) 5 3 5 : St ℤ).C 3 =
        (matmul_neon (onesLT 15) (onesLT 15) zeroBuf 5 3 5).C 3 :=
  ⟨by decide,
    @C6_C_init_independent ℤ _ (onesLT 15) (onesLT 15) (onesLT 25) zeroBuf 5 3 5 3 (by decide)⟩

/-- Claim C7: during one call of `matmul_neon` the packed-B scratch is one
buffer allocated at entry, `pack_B_tile` overwrites it once for every
(i-tile, j-tile, k-tile) triple, i.e. ⌈M/TILE⌉·⌈N/TILE⌉·⌈K/TILE⌉ times per
call, and all writes stay within the TILE*TILE floats of the scratch
(every cell at or beyond TILE*TILE still holds its initial 0 at the end of
the call); a single pack of a ragged tile writes only the sub-region of
the first 4·⌈width/4⌉·k_len cells. -/
theorem C7_scratch (A B C : Buf R) (M K N : Nat) :
    (matmul_neon A B C M K N).packs = cdiv M TILE * (cdiv N TILE * cdiv K TILE) ∧
      (∀ q, TILE * TILE ≤ q → (matmul_neon A B C M K N).P q = 0) ∧
      ∀ (B2 P2 : Buf R) (k0 k_end j0 j_end N2 q : Nat),
        k_end - k0 ≤ TILE → j_end - j0 ≤ TILE → TILE * TILE ≤ q →
          pack_B_tile B2 P2 k0 k_end j0 j_end N2 q = P2 q :=
  ⟨neon_packs A B C M K N, fun q hq => neon_P0 A B C M K N q hq,
    fun B2 P2 k0 k_end j0 j_end N2 q h1 h2 hq =>
      pack_frame_tile B2 P2 k0 k_end j0 j_end N2 q h1 h2 hq⟩

theorem C7_witness :
    (matmul_neon (onesLT 4) (onesLT 4) zeroBuf 2 2 2 : St ℤ).packs =
        cdiv 2 TILE * (cdiv 2 TILE * cdiv 2 TILE) ∧
      (matmul_neon (onesLT 4) (onesLT 4) zeroBuf 2 2 2 : St ℤ).P 4096 = 0 ∧
      pack_B_tile (onesLT 4 : Buf ℤ) zeroBuf 0 2 0 2 2 4096 = zeroBuf 4096 :=
  ⟨(@C7_scratch ℤ _ (onesLT 4) (onesLT 4) zeroBuf 2 2 2).1,
    (@C7_scratch ℤ _ (onesLT 4) (onesLT 4) zeroBuf 2 2 2).2.1 4096 (by decide),
    (@C7_scratch ℤ _ (onesLT 4) (onesLT 4) zeroBuf 2 2 2).2.2 (onesLT 4) zeroBuf 0 2 0 2 2
      4096 (by decide) (by decide) (by decide)⟩

/-- Claim C8 counterexample: with M=4, K=4, N=3 (N not a multiple of 4)
and integer inputs that are zero outside the logical buffers,
`matmul_neon` changes the C address space at flat index 12 = M*N, which
lies outside the M*N-float C buffer: memory other than the C buffer and
the scratch is written. -/
theorem C8_counterexample :
    (matmul_neon (onesLT 16) (onesLT 12) zeroBuf 4 4 3 : St ℤ).C 12 ≠ zeroBuf 12 := by
  decide

/-- Claim C8 (amended): `matmul_neon` never modifies the A and B buffers;
when M and N are multiples of 4 the only memory written is the M*N-float
C buffer and the call-private scratch (every C-space address at or beyond
M*N is unchanged); for M or N not a multiple of 4 the kernel can also
write C-space addresses at or beyond M*N, outside the C buffer. -/
theorem C8_amended (A B C : Buf R) (M K N : Nat) :
    (matmul_neon A B C M K N).A = A ∧ (matmul_neon A B C M K N).B = B ∧
      (M % 4 = 0 → N % 4 = 0 → ∀ p, M * N ≤ p → (matmul_neon A B C M K N).C p = C p) :=
  ⟨(neon_AB A B C M K N).1, (neon_AB A B C M K N).2,
    fun hM4 hN4 p hp => neon_C_frame A B C M K N hM4 hN4 p hp⟩

theorem C8_witness :
    (matmul_neon (onesLT 8) (onesLT 8) zeroBuf 4 2 4 : St ℤ).A = onesLT 8 ∧
      (matmul_neon (onesLT 8) (onesLT 8) zeroBuf 4 2 4 : St ℤ).C 17 = zeroBuf 17 :=
  ⟨(@C8_amended ℤ _ (onesLT 8) (onesLT 8) zeroBuf 4 2 4).1,
    (@C8_amended ℤ _ (onesLT 8) (onesLT 8) zeroBuf 4 2 4).2.2 (by decide) (by decide) 17
      (by decide)⟩

/-- Claim C9: for M, N positive multiples of 4 and any K, every access of
`matmul_neon` stays within the logical buffers, rendered extensionally:
the result on the C buffer depends only on the first M*K cells of A and
the first K*N cells of B (and not on C's initial content); no C-space
address at or beyond M*N is written; the scratch is written only below
TILE*TILE; and a single `pack_B_tile` writes at most
4·⌈(j_end-j0)/4⌉·(k_end-k0) scratch cells. -/
theorem C9_bounds (A A2 B B2 C C2 : Buf R) (M K N : Nat)
    (hM : 0 < M) (hN : 0 < N) (hM4 : M % 4 = 0) (hN4 : N % 4 = 0)
    (hA : ∀ p, p < M * K → A p = A2 p) (hB : ∀ p, p < K * N → B p = B2 p) :
    (∀ p, p < M * N → (matmul_neon A B C M K N).C p = (matmul_neon A2 B2 C2 M K N).C p) ∧
      (∀ p, M * N ≤ p → (matmul_neon A B C M K N).C p = C p) ∧
      (∀ p, TILE * TILE ≤ p → (matmul_neon A B C M K N).P p = 0) ∧
      ∀ (B3 P3 : Buf R) (k0 k_end j0 j_end N2 q : Nat),
        4 * ((j_end - j0 + 3) / 4 * (k_end - k0)) ≤ q →
          pack_B_tile B3 P3 k0 k_end j0 j_end N2 q = P3 q := by
  refine ⟨?_, ?_, ?_, ?_⟩
  · intro p hp
    obtain ⟨i, j, hi, hj, hpe⟩ := addr_decomp M N p hp
    subst hpe
    rw [neon_C_at A B C M K N hM4 hN4 i j hi hj, neon_C_at A2 B2 C2 M K N hM4 hN4 i j hi hj]
    apply Finset.sum_congr rfl
    intro k hk
    have hkK : k < K := Finset.mem_range.mp hk
    rw [hA (i * K + k) (by have h := @row_lt_addr K i k M 0 hkK hi; omega),
      hB (k * N + j) (by have h := @row_lt_addr N k j K 0 hj hkK; omega)]
  · intro p hp
    exact neon_C_frame A B C M K N hM4 hN4 p hp
  · intro p hp
    exact neon_P0 A B C M K N p hp
  · intro B3 P3 k0 k_end j0 j_end N2 q hq
    unfold pack_B_tile
    exact packJ_frame B3 P3 k0 (k_end - k0) j0 N2 ((j_end - j0 + 3) / 4) q hq

theorem C9_witness :
    (matmul_neon (onesLT 8) (onesLT 8) zeroBuf 4 2 4 : St ℤ).C 0 =
        (matmul_neon (onesLT 8) (onesLT 8) (onesLT 16) 4 2 4).C 0 ∧
      (matmul_neon (onesLT 8) (onesLT 8) zeroBuf 4 2 4 : St ℤ).C 16 = zeroBuf 16 ∧
      (matmul_neon (onesLT 8) (onesLT 8) zeroBuf 4 2 4 : St ℤ).P 4096 = 0 ∧
      pack_B_tile (onesLT 8 : Buf ℤ) zeroBuf 0 2 0 4 4 8 = zeroBuf 8 :=
  ⟨(@C9_bounds ℤ _ (onesLT 8) (onesLT 8) (onesLT 8) (onesLT 8) zeroBuf (onesLT 16) 4 2 4
      (by decide) (by decide) (by decide) (by decide) (fun p hp => rfl) (fun p hp => rfl)).1 0
      (by decide),
    (@C9_bounds ℤ _ (onesLT 8) (onesLT 8) (onesLT 8) (onesLT 8) zeroBuf (onesLT 16) 4 2 4
      (by decide) (by decide) (by decide) (by decide) (fun p hp => rfl) (fun p hp => rfl)).2.1 16
      (by decide),
    (@C9_bounds ℤ _ (onesLT 8) (onesLT 8) (onesLT 8) (onesLT 8) zeroBuf (onesLT 16) 4 2 4
      (by decide) (by decide) (by decide) (by decide) (fun p hp => rfl) (fun p hp => rfl)).2.2.1
      4096 (by decide),
    (@C9_bounds ℤ _ (onesLT 8) (onesLT 8) (onesLT 8) (onesLT 8) zeroBuf (onesLT 16) 4 2 4
      (by decide) (by decide) (by decide) (by decide) (fun p hp => rfl) (fun p hp => rfl)).2.2.2
      (onesLT 8) zeroBuf 0 2 0 4 4 8 (by decide)⟩

/-- Claim C10: for every N ≥ 0 and all inputs, each scalar tiled
square-matrix variant — `matmul_tiled_1d`, `matmul_tiled_2d` and
`matmul_tiled` (8-wide unrolled inner loop plus scalar remainder) —
computes, under exact arithmetic, exactly the same C buffer as
`matmul_naive` (the square naive reference), including when N is not a
multiple of the tile size or of 8. -/
theorem C10_tiled_variants_eq_naive (A B C : Buf R) (N : Nat) :
    matmul_tiled_1d A B C N = matmul_naive_sq A B C N ∧
      matmul_tiled_2d A B C N = matmul_naive_sq A B C N ∧
      matmul_tiled A B C N = matmul_naive_sq A B C N :=
  ⟨funext fun p => tiled_1d_eq_naive_aux A B C N p,
    funext fun p => tiled_2d_eq_naive_aux A B C N p,
    funext fun p => tiled_eq_naive_aux A B C N p⟩
